import Mathlib

/-!
Verification of the trollskript plan-and-commit copy pipeline
(`src/trollskript.py`): content-addressed deduplication, collision
resolution, sidecar rename propagation and audit-log production.

Modelling conventions (shallow embedding):
* A file's content is a `Nat`; SHA-256 is collision-resistant, so the
  fingerprint of a file is identified with its content (`hash = content`).
* A path (`FPath`) is a parent directory (list of path components) plus a
  file name; `pathlib.Path.stem/.suffix` semantics are implemented on the
  name string.
* The filesystem is an association list from paths to `Option Nat`:
  a missing key is a non-existent file, `some none` is a file that exists
  but cannot be read (hashing raises `OSError`), `some (some c)` is a
  readable file with content `c`.  Copying prepends an entry; the engine
  only ever copies to paths that do not currently exist.
* Python `dict`s (`seen_hashes`, `media_renames`) are association lists
  with first-match lookup; assignment prepends, which gives the same
  lookup semantics.
* Python string comparison (used by `sorted`) is lexicographic on code
  points, implemented here by `strCmp`; Python's `sorted` is a stable
  sort, modelled by insertion sort.
* Directory creation (`mkdir(parents=True, exist_ok=True)`) has no
  observable effect on the file map and is not modelled.
-/

namespace Trollskript

/-! ## Python string primitives -/

/-- Lexicographic three-way comparison of character lists by code point,
the comparison Python uses on `str`. -/
def strCmpL : List Char → List Char → Ordering
  | [], [] => .eq
  | [], _ :: _ => .lt
  | _ :: _, [] => .gt
  | a :: as, b :: bs =>
    match compare a.toNat b.toNat with
    | .eq => strCmpL as bs
    | o => o

/-- Three-way comparison of strings, Python `str` comparison. -/
def strCmp (s t : String) : Ordering := strCmpL s.data t.data

/-- Index of the last '.' in a character list, if any
(Python `str.rfind`). -/
def lastDotPosAux : List Char → Nat → Option Nat → Option Nat
  | [], _, acc => acc
  | c :: rest, i, acc => lastDotPosAux rest (i+1) (if c = '.' then some i else acc)

/-- Split a file name into `(stem, suffix)` with `pathlib` semantics:
the suffix is the part from the last dot on, but is empty when there is
no dot, when the dot is the first character, or when it is the last. -/
def nameSplit (name : String) : String × String :=
  let cs := name.data
  match lastDotPosAux cs 0 none with
  | some i => if 0 < i ∧ i < cs.length - 1 then (⟨cs.take i⟩, ⟨cs.drop i⟩) else (name, "")
  | none => (name, "")

/-- Replace the first occurrence of `old` by `new` in a character list,
Python `str.replace(old, new, 1)`. -/
def replaceFirstL (old new : List Char) : List Char → List Char
  | [] => if old.isEmpty then new else []
  | c :: rest =>
    if old.isPrefixOf (c :: rest) then new ++ (c :: rest).drop old.length
    else c :: replaceFirstL old new rest

/-- Python `s.replace(old, new, 1)`. -/
def replaceFirst (s old new : String) : String := ⟨replaceFirstL old.data new.data s.data⟩

/-- Python `str.strip()`: drop leading and trailing whitespace. -/
def pyStrip (s : String) : String :=
  ⟨((s.data.dropWhile Char.isWhitespace).reverse.dropWhile Char.isWhitespace).reverse⟩

/-- Zero-pad the decimal representation of `n` to width `w`
(Python format spec `0wd`). -/
def padZeros (w : Nat) (n : Nat) : String :=
  let s := toString n
  ⟨List.replicate (w - s.data.length) '0' ++ s.data⟩

/-! ## Paths and the filesystem model -/

/-- A filesystem path: parent directory components plus a file name. -/
structure FPath where
  dir : List String
  name : String
deriving DecidableEq, Repr

/-- `str(path)`: the textual form of a path (used only as a sort key). -/
def pathStr (p : FPath) : String := String.intercalate "/" (p.dir ++ [p.name])

/-- `Path.stem` of the file name. -/
def pstem (p : FPath) : String := (nameSplit p.name).1

/-- `Path.suffix` of the file name. -/
def psuffix (p : FPath) : String := (nameSplit p.name).2

/-- The filesystem: association list from paths to contents.
`some none` marks an existing but unreadable file. -/
abbrev FS : Type := List (FPath × Option Nat)

/-- First-match lookup: `none` = no such file. -/
def fsLookup : FS → FPath → Option (Option Nat)
  | [], _ => none
  | (q, c) :: rest, p => if p = q then some c else fsLookup rest p

/-- `path.exists()`. -/
def fsExists (fs : FS) (p : FPath) : Bool := (fsLookup fs p).isSome

/-- `_hash_file(path)`: the streaming SHA-256 of a file, modelled as the
file's content; `none` models the `OSError` raised when the file is
missing or unreadable. -/
def _hash_file (fs : FS) (p : FPath) : Option Nat :=
  match fsLookup fs p with
  | some (some c) => some c
  | _ => none

/-- `shutil.copy2` to a fresh destination: record the content there. -/
def fsInsert (fs : FS) (p : FPath) (c : Nat) : FS := (p, some c) :: fs

/-- Is `p` inside the directory tree rooted at `root`? -/
def underDir (root : List String) (p : FPath) : Bool := root.isPrefixOf p.dir

/-- The reserved audit-log file names skipped by the destination indexer. -/
def skipNames : List String :=
  ["found_files.txt", "found_files.json", "report.json",
   "duplicates_skipped.json", "collisions.json", "collisions_applied.json"]

/-! ## EXIF timestamp parsing and destination bucketing -/

/-- A parsed EXIF timestamp (`datetime`): calendar components plus an
optional timezone offset in minutes.  The offset is stored but never
used for bucketing (no UTC normalization). -/
structure ExifDT where
  year : Nat
  month : Nat
  day : Nat
  hour : Nat
  minute : Nat
  second : Nat
  tzOffsetMinutes : Option Int
deriving DecidableEq, Repr

def isLeapYear (y : Nat) : Bool := y % 4 = 0 ∧ (y % 100 ≠ 0 ∨ y % 400 = 0)

def daysInMonth (y m : Nat) : Nat :=
  if m = 2 then (if isLeapYear y then 29 else 28)
  else if m = 4 ∨ m = 6 ∨ m = 9 ∨ m = 11 then 30
  else 31

/-- Value of a decimal digit character list (all characters assumed
digits). -/
def digitsVal (cs : List Char) : Nat := cs.foldl (fun n c => n * 10 + (c.toNat - 48)) 0

def allDigits (cs : List Char) : Bool := cs.all (fun c => c.isDigit)

/-- Parse a timezone offset suffix (`strptime` `%z`): `Z`, `±HHMM` or
`±HH:MM`, returning the offset in minutes.  (The rarer `%z` forms with
seconds or fractions of a second are not modelled.) -/
def parseTzOffset (cs : List Char) : Option Int :=
  match cs with
  | ['Z'] => some 0
  | sgn :: h1 :: h2 :: ':' :: m1 :: m2 :: [] =>
    if (sgn = '+' ∨ sgn = '-') ∧ allDigits [h1, h2, m1, m2] then
      let hh := digitsVal [h1, h2]
      let mm := digitsVal [m1, m2]
      if mm ≤ 59 ∧ hh * 60 + mm < 24 * 60 then
        some (if sgn = '-' then -(((hh * 60 + mm) : Nat) : Int) else ((hh * 60 + mm : Nat) : Int))
      else none
    else none
  | sgn :: h1 :: h2 :: m1 :: m2 :: [] =>
    if (sgn = '+' ∨ sgn = '-') ∧ allDigits [h1, h2, m1, m2] then
      let hh := digitsVal [h1, h2]
      let mm := digitsVal [m1, m2]
      if mm ≤ 59 ∧ hh * 60 + mm < 24 * 60 then
        some (if sgn = '-' then -(((hh * 60 + mm) : Nat) : Int) else ((hh * 60 + mm : Nat) : Int))
      else none
    else none
  | _ => none

/-- Calendar/clock validation performed by the `datetime` constructor. -/
def validDT (y m d hh mm ss : Nat) : Bool :=
  1 ≤ y ∧ y ≤ 9999 ∧ 1 ≤ m ∧ m ≤ 12 ∧ 1 ≤ d ∧ d ≤ daysInMonth y m ∧
    hh ≤ 23 ∧ mm ≤ 59 ∧ ss ≤ 59

/-- `_parse_exif_dt(value)`: parse `"YYYY:MM:DD HH:MM:SS"` with an
optional trailing timezone offset (the two `strptime` formats tried by
the source).  The date and clock fields are taken exactly as written;
only the fixed-width form of each field is modelled. -/
def _parse_exif_dt (value : String) : Option ExifDT :=
  match (pyStrip value).data with
  | y1 :: y2 :: y3 :: y4 :: ':' :: m1 :: m2 :: ':' :: d1 :: d2 :: ' ' ::
      h1 :: h2 :: ':' :: n1 :: n2 :: ':' :: s1 :: s2 :: rest =>
    if allDigits [y1, y2, y3, y4, m1, m2, d1, d2, h1, h2, n1, n2, s1, s2] then
      let y := digitsVal [y1, y2, y3, y4]
      let mo := digitsVal [m1, m2]
      let d := digitsVal [d1, d2]
      let hh := digitsVal [h1, h2]
      let mi := digitsVal [n1, n2]
      let ss := digitsVal [s1, s2]
      if validDT y mo d hh mi ss then
        match rest with
        | [] => some ⟨y, mo, d, hh, mi, ss, none⟩
        | _ =>
          match parseTzOffset rest with
          | some off => some ⟨y, mo, d, hh, mi, ss, some off⟩
          | none => none
      else none
    else none
  | _ => none

/-- EXIF tags tried in priority order. -/
def EXIF_DATE_TAGS_PRIORITY : List String :=
  ["DateTimeOriginal", "MediaCreateDate", "CreateDate", "TrackCreateDate", "ModifyDate"]

/-- First-match lookup in exiftool's per-file metadata record. -/
def metaLookup : List (String × String) → String → Option String
  | [], _ => none
  | (k, v) :: rest, t => if t = k then some v else metaLookup rest t

/-- `_pick_best_date(meta)`: the first tag, in priority order, whose
value parses. -/
def pickBestAux : List String → List (String × String) → Option (ExifDT × String)
  | [], _ => none
  | t :: rest, meta =>
    match metaLookup meta t with
    | some v =>
      match _parse_exif_dt v with
      | some dt => some (dt, t)
      | none => pickBestAux rest meta
    | none => pickBestAux rest meta

def _pick_best_date (meta : List (String × String)) : Option ExifDT × Option String :=
  match pickBestAux EXIF_DATE_TAGS_PRIORITY meta with
  | some (dt, t) => (some dt, some t)
  | none => (none, none)

/-- A classified media item. -/
structure MediaItem where
  src : FPath
  sidecars : List FPath
  exif_date : Option ExifDT
  exif_tag_used : Option String
  mime_type : Option String
deriving DecidableEq, Repr

/-- `_folder_for_item(base_out, item)`: dateless items go to the fixed
`unknown_date` bucket; dated items go to a `"YYYY-MM-DD -"` folder built
from the timestamp's own date components (the timezone offset, if any,
is ignored — no UTC normalization). -/
def _folder_for_item (base_out : List String) (item : MediaItem) : List String :=
  match item.exif_date with
  | none => base_out ++ ["unknown_date"]
  | some dt =>
    base_out ++ [padZeros 4 dt.year ++ "-" ++ padZeros 2 dt.month ++ "-" ++ padZeros 2 dt.day ++ " -"]

/-- A planned copy. -/
structure PlannedCopy where
  src : FPath
  dst : FPath
  kind : String  -- "media" | "sidecar"
  group_id : String
deriving DecidableEq, Repr

/-- Insert a year into the set of years (Python `set.add`, modelled as
an append-if-absent list). -/
def insertYear (ys : List Nat) (y : Nat) : List Nat := if y ∈ ys then ys else ys ++ [y]

/-- `plan_copies(items, base_out)`.  The stable per-source group id is
`sha1(str(src))[:12]` in the source; the cryptographic hash itself is
external to this model, so the group-id function is a parameter. -/
def plan_copies (gid : FPath → String) (items : List MediaItem) (base_out : List String) :
    List PlannedCopy × List Nat :=
  items.foldl
    (fun acc item =>
      let years := match item.exif_date with
        | some dt => insertYear acc.2 dt.year
        | none => acc.2
      let dstDir := _folder_for_item base_out item
      let g := gid item.src
      (acc.1 ++ [⟨item.src, ⟨dstDir, item.src.name⟩, "media", g⟩] ++
        item.sidecars.map (fun sc => ⟨sc, ⟨dstDir, sc.name⟩, "sidecar", g⟩), years))
    ([], [])

/-! ## Commit engine: sorting -/

/-- Sort-key component for the plan kind: media before sidecar. -/
def kindNum (k : String) : Nat := if k = "media" then 0 else 1

/-- The commit engine's sort key comparison,
`(p.group_id, 0 if p.kind == "media" else 1, str(p.src))` compared as a
Python tuple (lexicographically). -/
def planLEb (a b : PlannedCopy) : Bool :=
  match strCmp a.group_id b.group_id with
  | .lt => true
  | .gt => false
  | .eq =>
    match compare (kindNum a.kind) (kindNum b.kind) with
    | .lt => true
    | .gt => false
    | .eq =>
      match strCmp (pathStr a.src) (pathStr b.src) with
      | .gt => false
      | _ => true

def planLE (a b : PlannedCopy) : Prop := planLEb a b = true

instance planLE.decRel : DecidableRel planLE := fun _ _ => inferInstanceAs (Decidable (_ = true))

/-- `sorted(plans, key=...)`: Python's sort is stable; insertion sort is
the stable sort used to model it. -/
def sortPlans (plans : List PlannedCopy) : List PlannedCopy := List.insertionSort planLE plans

/-! ## Commit engine: audit records -/

/-- One entry of `report.json` (`_make_entry(plan, status=..., ...)`).
The `error` text of an `error` entry is not modelled beyond the status
tag; `hash` is absent (`none`) exactly for `error` entries. -/
structure RepEntry where
  src : FPath
  dst : FPath
  kind : String
  group_id : String
  status : String
  hash : Option Nat
deriving DecidableEq, Repr

/-- One entry of `duplicates_skipped.json`. -/
structure DupEntry where
  src : FPath
  dst : FPath
  kind : String
  group_id : String
  existing : Option FPath
  hash : Nat
deriving DecidableEq, Repr

/-- One entry of `collisions.json`. -/
structure ColEntry where
  src : FPath
  dst : FPath
  kind : String
  group_id : String
  src_hash : Nat
  dst_hash : Option Nat
deriving DecidableEq, Repr

/-- One entry of `collisions_applied.json`: the deferred collision plus
its final status and final destination. -/
structure AppEntry where
  col : ColEntry
  final_status : String
  final_dst : Option FPath
deriving DecidableEq, Repr

def mkRep (p : PlannedCopy) (status : String) (h : Option Nat) : RepEntry :=
  ⟨p.src, p.dst, p.kind, p.group_id, status, h⟩

/-! ## Commit engine: first pass -/

/-- `seen_hashes` lookup (`h in seen_hashes` / `seen_hashes[h]`). -/
def seenGet : List (Nat × FPath) → Nat → Option FPath
  | [], _ => none
  | (h, p) :: rest, x => if x = h then some p else seenGet rest x

def seenContains (s : List (Nat × FPath)) (h : Nat) : Bool := (seenGet s h).isSome

/-- `seen_hashes[h] = p` (dict assignment; prepending gives the same
first-match lookup semantics). -/
def seenInsert (s : List (Nat × FPath)) (h : Nat) (p : FPath) : List (Nat × FPath) := (h, p) :: s

/-- The mutable state of the first pass of `copy_with_policy`. -/
structure St1 where
  fs : FS
  seen : List (Nat × FPath)
  report : List RepEntry
  dups : List DupEntry
  cols : List ColEntry

/-- One iteration of the first loop of `copy_with_policy`: hash the
source (on failure record `error` and move on), then in order: known
fingerprint → `skipped_duplicate`; existing destination with equal
content → `already_present_same_content`; existing destination with
different (or unreadable) content → `collision_deferred`; otherwise copy
and register the fingerprint. -/
def step1 (st : St1) (plan : PlannedCopy) : St1 :=
  match _hash_file st.fs plan.src with
  | none => { st with report := st.report ++ [mkRep plan "error" none] }
  | some srcHash =>
    if seenContains st.seen srcHash then
      { st with
        dups := st.dups ++ [⟨plan.src, plan.dst, plan.kind, plan.group_id, seenGet st.seen srcHash, srcHash⟩],
        report := st.report ++ [mkRep plan "skipped_duplicate" (some srcHash)] }
    else if fsExists st.fs plan.dst then
      let dstHash := _hash_file st.fs plan.dst
      if dstHash = some srcHash then
        { st with
          seen := seenInsert st.seen srcHash plan.dst,
          report := st.report ++ [mkRep plan "already_present_same_content" (some srcHash)] }
      else
        { st with
          cols := st.cols ++ [⟨plan.src, plan.dst, plan.kind, plan.group_id, srcHash, dstHash⟩],
          report := st.report ++ [mkRep plan "collision_deferred" (some srcHash)] }
    else
      { st with
        fs := fsInsert st.fs plan.dst srcHash,
        seen := seenInsert st.seen srcHash plan.dst,
        report := st.report ++ [mkRep plan "copied" (some srcHash)] }

/-! ## Commit engine: collision resolution -/

/-- Candidate file name with numeric disambiguator:
`f"{stem}_({i}){suffix}"`. -/
def candName (stem sfx : String) (i : Nat) : String :=
  stem ++ "_(" ++ toString i ++ ")" ++ sfx

/-- The bounded search of `_ensure_unique_path`: try `i`, `i+1`, …
while fuel lasts; `none` models the `RuntimeError` raised on
exhaustion.  Called with `i = 1` and fuel `9999` (`range(1, 10_000)`). -/
def euSearch (fs : FS) (parent : List String) (stem sfx : String) : Nat → Nat → Option FPath
  | _, 0 => none
  | i, fuel + 1 =>
    let cand : FPath := ⟨parent, candName stem sfx i⟩
    if fsExists fs cand then euSearch fs parent stem sfx (i+1) fuel else some cand

/-- `_ensure_unique_path(dst)`: `dst` itself if free, else the first
free numerically disambiguated sibling; `none` on name-space
exhaustion (`RuntimeError`). -/
def _ensure_unique_path (fs : FS) (dst : FPath) : Option FPath :=
  if fsExists fs dst then euSearch fs dst.dir (pstem dst) (psuffix dst) 1 9999
  else some dst

/-- `media_renames` lookup: group id → (old stem, new stem, new parent). -/
def renLookup : List (String × String × String × List String) → String →
    Option (String × String × List String)
  | [], _ => none
  | (g, os, ns, np) :: rest, x => if x = g then some (os, ns, np) else renLookup rest x

/-- The mutable state of the collision-resolution pass. -/
structure St2 where
  fs : FS
  seen : List (Nat × FPath)
  renames : List (String × String × String × List String)
  applied : List AppEntry

/-- Destination determination for one deferred collision (the
`# Determine final destination` block): a sidecar whose group has a
recorded primary rename substitutes the new stem for the old one in its
own file name and is disambiguated under the primary's resolved parent;
otherwise `rename` disambiguates next to the planned destination and
`conflicts` under the conflicts directory. -/
def finalDst (policy : String) (conflictsDir : List String) (st : St2) (c : ColEntry) :
    Option FPath :=
  match (if c.kind = "sidecar" then renLookup st.renames c.group_id else none) with
  | some (oldStem, newStem, newParent) =>
    _ensure_unique_path st.fs ⟨newParent, replaceFirst c.dst.name oldStem newStem⟩
  | none =>
    if policy = "rename" then _ensure_unique_path st.fs c.dst
    else _ensure_unique_path st.fs ⟨conflictsDir, c.dst.name⟩

/-- One iteration of the collision-resolution loop: duplicates that
became known are skipped; under the `skip` policy nothing is touched;
otherwise the final destination is computed, a primary whose stem
changed records the rename, and the file is copied and registered.
`Except.error` models the uncaught `RuntimeError` of name-space
exhaustion.  `shutil.copy2(src, final_dst)` writes the source's bytes;
since no run ever writes to a source path, those bytes are the ones
hashed in the first pass, i.e. content `c.src_hash`. -/
def step2 (policy : String) (conflictsDir : List String) (st : St2) (c : ColEntry) :
    Except String St2 :=
  if seenContains st.seen c.src_hash then
    .ok { st with applied := st.applied ++ [⟨c, "skipped_duplicate_after_policy", none⟩] }
  else if policy = "skip" then
    .ok { st with applied := st.applied ++ [⟨c, "skipped_collision", none⟩] }
  else
    match finalDst policy conflictsDir st c with
    | none => .error "Could not find a free name"
    | some fd =>
      let renames' :=
        if c.kind = "media" ∧ pstem fd ≠ pstem c.dst
        then (c.group_id, pstem c.dst, pstem fd, fd.dir) :: st.renames
        else st.renames
      .ok { fs := fsInsert st.fs fd c.src_hash,
            seen := seenInsert st.seen c.src_hash fd,
            renames := renames',
            applied := st.applied ++ [⟨c, "copied_after_collision", some fd⟩] }

/-- The collision-resolution loop.  The boolean is `true` when the loop
was aborted by the uncaught exhaustion error; the state returned is the
state at the abort (remaining collisions unprocessed). -/
def pass2 (policy : String) (cdir : List String) : St2 → List ColEntry → St2 × Bool
  | st, [] => (st, false)
  | st, c :: rest =>
    match step2 policy cdir st c with
    | .ok st' => pass2 policy cdir st' rest
    | .error _ => (st, true)

/-! ## Destination indexer -/

/-- `idx.setdefault(h, []).append(p)`. -/
def idxAdd (idx : List (Nat × List FPath)) (h : Nat) (p : FPath) : List (Nat × List FPath) :=
  match idx with
  | [] => [(h, [p])]
  | (h', ps) :: rest => if h' = h then (h', ps ++ [p]) :: rest else (h', ps) :: idxAdd rest h p

/-- `build_dest_hash_index(dest_root)`: hash every file under the
destination root except the reserved audit-log names, swallowing
per-file I/O errors (unreadable files are excluded). -/
def build_dest_hash_index (fs : FS) (destRoot : List String) : List (Nat × List FPath) :=
  fs.foldl
    (fun idx pc =>
      if underDir destRoot pc.1 ∧ pc.1.name ∉ skipNames then
        match pc.2 with
        | some c => idxAdd idx c pc.1
        | none => idx
      else idx)
    []

/-! ## Commit engine: the full run -/

/-- The observable outcome of one `copy_with_policy` run: the final
filesystem, the three always-written log collections, the
applied-collisions log (`none` when the file was not written this run:
either no collision was deferred, or the resolution pass aborted), and
whether the resolution pass aborted on name-space exhaustion. -/
structure RunResult where
  fs : FS
  report : List RepEntry
  dups : List DupEntry
  cols : List ColEntry
  applied : Option (List AppEntry)
  aborted : Bool
deriving Repr

/-- `{h: paths[0] for h, paths in dest_hash_index.items() if paths}`. -/
def initialSeen (idx : List (Nat × List FPath)) : List (Nat × FPath) :=
  idx.filterMap (fun hp => hp.2.head?.map (fun p => (hp.1, p)))

/-- The state after the first pass of `copy_with_policy`. -/
def pass1St (plans : List PlannedCopy) (dest_hash_index : List (Nat × List FPath))
    (fs0 : FS) : St1 :=
  (sortPlans plans).foldl step1 ⟨fs0, initialSeen dest_hash_index, [], [], []⟩

/-- `copy_with_policy(plans, dest_hash_index, base_out, logs_dir,
collision_policy)`: sort the plans, run the first pass, write the three
logs, then (only if collisions were deferred) run the resolution pass
and write the applied-collisions log. -/
def copy_with_policy (plans : List PlannedCopy) (dest_hash_index : List (Nat × List FPath))
    (base_out : List String) (collision_policy : String) (fs0 : FS) : RunResult :=
  let st1 := pass1St plans dest_hash_index fs0
  if st1.cols.isEmpty then
    ⟨st1.fs, st1.report, st1.dups, st1.cols, none, false⟩
  else
    let conflictsDir := base_out ++ ["conflicts"]
    let r2 := pass2 collision_policy conflictsDir ⟨st1.fs, st1.seen, [], []⟩ st1.cols
    ⟨r2.1.fs, st1.report, st1.dups, st1.cols,
      if r2.2 then none else some r2.1.applied, r2.2⟩

/-- The state of the audit-log files on disk (`logs_dir`). -/
structure RunLogs where
  report : List RepEntry
  duplicates : List DupEntry
  collisions : List ColEntry
  applied : List AppEntry
deriving DecidableEq, Repr

/-- The log files on disk after a run, given their prior contents:
`report.json`, `duplicates_skipped.json` and `collisions.json` are
always fully rewritten; `collisions_applied.json` is rewritten only when
the run produced an applied-collisions list. -/
def logsAfter (prior : RunLogs) (r : RunResult) : RunLogs :=
  ⟨r.report, r.dups, r.cols, r.applied.getD prior.applied⟩

/-- Number of files with content `h` (used to count physical copies). -/
def countContent (fs : FS) (h : Nat) : Nat :=
  (fs.filter (fun pc => pc.2 = some h)).length

/-! ## The comparison used by the sort is a total preorder -/

theorem charToNat_inj {a b : Char} (h : a.toNat = b.toNat) : a = b := by
  apply Char.ext
  exact UInt32.toNat.inj h

theorem strCmpL_eq_iff : ∀ a b : List Char, strCmpL a b = .eq ↔ a = b
  | [], [] => by simp [strCmpL]
  | [], _ :: _ => by simp [strCmpL]
  | _ :: _, [] => by simp [strCmpL]
  | a :: as, b :: bs => by
    simp only [strCmpL]
    rcases h : compare a.toNat b.toNat with hc | hc | hc
    · simp only [List.cons.injEq]
      constructor
      · intro hh; exact absurd hh (by simp)
      · rintro ⟨rfl, rfl⟩; simp [Nat.compare_eq_eq.mpr rfl] at h
    · rw [strCmpL_eq_iff as bs]
      have hab : a = b := charToNat_inj (Nat.compare_eq_eq.mp h)
      subst hab
      simp
    · constructor
      · intro hh; exact absurd hh (by simp)
      · rintro h2
        injection h2 with h3 h4
        subst h3
        simp [Nat.compare_eq_eq.mpr rfl] at h

theorem strCmpL_lt_gt : ∀ a b : List Char, strCmpL a b = .lt ↔ strCmpL b a = .gt
  | [], [] => by simp [strCmpL]
  | [], _ :: _ => by simp [strCmpL]
  | _ :: _, [] => by simp [strCmpL]
  | a :: as, b :: bs => by
    simp only [strCmpL]
    rcases h : compare a.toNat b.toNat with hc | hc | hc
    · have h2 : compare b.toNat a.toNat = .gt := Nat.compare_eq_gt.mpr (Nat.compare_eq_lt.mp h)
      simp [h2]
    · have hab : a.toNat = b.toNat := Nat.compare_eq_eq.mp h
      have h2 : compare b.toNat a.toNat = .eq := Nat.compare_eq_eq.mpr hab.symm
      simp [h2, strCmpL_lt_gt as bs]
    · have h2 : compare b.toNat a.toNat = .lt := Nat.compare_eq_lt.mpr (Nat.compare_eq_gt.mp h)
      simp [h2]

theorem strCmpL_lt_trans :
    ∀ (a b c : List Char), strCmpL a b = .lt → strCmpL b c = .lt → strCmpL a c = .lt := by
  intro a
  induction a with
  | nil =>
    intro b c h1 h2
    cases b with
    | nil => exact h2
    | cons bh bt =>
      cases c with
      | nil => simp [strCmpL] at h2
      | cons ch ct => simp [strCmpL]
  | cons ah tl ih =>
    intro b c h1 h2
    cases b with
    | nil => simp [strCmpL] at h1
    | cons bh bt =>
      cases c with
      | nil => simp [strCmpL] at h2
      | cons ch ct =>
        simp only [strCmpL] at h1 h2 ⊢
        rcases hab : compare ah.toNat bh.toNat with _ | _ | _ <;>
          rcases hbc : compare bh.toNat ch.toNat with _ | _ | _ <;>
            simp only [hab, hbc] at h1 h2
        all_goals first
          | exact Ordering.noConfusion h1
          | exact Ordering.noConfusion h2
          | skip
        · have hac : compare ah.toNat ch.toNat = .lt :=
            Nat.compare_eq_lt.mpr (Nat.lt_trans (Nat.compare_eq_lt.mp hab) (Nat.compare_eq_lt.mp hbc))
          simp [hac]
        · have hbc' : bh.toNat = ch.toNat := Nat.compare_eq_eq.mp hbc
          have hac : compare ah.toNat ch.toNat = .lt :=
            Nat.compare_eq_lt.mpr (hbc' ▸ Nat.compare_eq_lt.mp hab)
          simp [hac]
        · have hab' : ah.toNat = bh.toNat := Nat.compare_eq_eq.mp hab
          have hac : compare ah.toNat ch.toNat = .lt :=
            Nat.compare_eq_lt.mpr (hab' ▸ Nat.compare_eq_lt.mp hbc)
          simp [hac]
        · have hab' : ah.toNat = bh.toNat := Nat.compare_eq_eq.mp hab
          have hac : compare ah.toNat ch.toNat = .eq :=
            Nat.compare_eq_eq.mpr (hab'.trans (Nat.compare_eq_eq.mp hbc))
          simp [hac]
          exact ih bt ct h1 h2

theorem strCmp_eq_iff (s t : String) : strCmp s t = .eq ↔ s = t := by
  unfold strCmp
  rw [strCmpL_eq_iff]
  constructor
  · intro h; cases s; cases t; simp_all
  · intro h; rw [h]

theorem strCmp_lt_gt (s t : String) : strCmp s t = .lt ↔ strCmp t s = .gt :=
  strCmpL_lt_gt s.data t.data

theorem strCmp_lt_trans {s t u : String} (h1 : strCmp s t = .lt) (h2 : strCmp t u = .lt) :
    strCmp s u = .lt :=
  strCmpL_lt_trans s.data t.data u.data h1 h2

theorem planLE_total : ∀ a b : PlannedCopy, planLE a b ∨ planLE b a := by
  intro a b
  unfold planLE planLEb
  rcases h : strCmp a.group_id b.group_id with h' | h' | h'
  · left; simp
  · have hg : strCmp b.group_id a.group_id = .eq := by
      rw [strCmp_eq_iff] at h ⊢; exact h.symm
    rw [hg]
    rcases h2 : compare (kindNum a.kind) (kindNum b.kind) with h'' | h'' | h''
    · left; simp
    · have h2' : compare (kindNum b.kind) (kindNum a.kind) = .eq :=
        Nat.compare_eq_eq.mpr (Nat.compare_eq_eq.mp h2).symm
      rw [h2']
      rcases h3 : strCmp (pathStr a.src) (pathStr b.src) with h''' | h''' | h'''
      · left; simp
      · have hs : strCmp (pathStr b.src) (pathStr a.src) = .eq := by
          rw [strCmp_eq_iff] at h3 ⊢; exact h3.symm
        rw [hs]; left; simp
      · have hs : strCmp (pathStr b.src) (pathStr a.src) = .lt := (strCmp_lt_gt _ _).mpr h3
        rw [hs]; right; simp
    · have h2' : compare (kindNum b.kind) (kindNum a.kind) = .lt :=
        Nat.compare_eq_lt.mpr (Nat.compare_eq_gt.mp h2)
      rw [h2']; right; simp
  · have hg : strCmp b.group_id a.group_id = .lt := (strCmp_lt_gt _ _).mpr h
    rw [hg]; right; simp

theorem planLE_trans : ∀ a b c : PlannedCopy, planLE a b → planLE b c → planLE a c := by
  intro a b c hab hbc
  unfold planLE planLEb at hab hbc ⊢
  rcases h1 : strCmp a.group_id b.group_id with _ | _ | _ <;>
    rcases h2 : strCmp b.group_id c.group_id with _ | _ | _ <;>
      simp only [h1, h2] at hab hbc
  all_goals first
    | exact Bool.noConfusion hab
    | exact Bool.noConfusion hbc
    | skip
  · have hg : strCmp a.group_id c.group_id = .lt := strCmp_lt_trans h1 h2
    simp [hg]
  · have he : b.group_id = c.group_id := (strCmp_eq_iff _ _).mp h2
    have hg : strCmp a.group_id c.group_id = .lt := by rw [← he]; exact h1
    simp [hg]
  · have he : a.group_id = b.group_id := (strCmp_eq_iff _ _).mp h1
    have hg : strCmp a.group_id c.group_id = .lt := by rw [he]; exact h2
    simp [hg]
  · have hg : strCmp a.group_id c.group_id = .eq := (strCmp_eq_iff _ _).mpr
      (((strCmp_eq_iff _ _).mp h1).trans ((strCmp_eq_iff _ _).mp h2))
    simp only [hg]
    rcases h3 : compare (kindNum a.kind) (kindNum b.kind) with _ | _ | _ <;>
      rcases h4 : compare (kindNum b.kind) (kindNum c.kind) with _ | _ | _ <;>
        simp only [h3, h4] at hab hbc
    all_goals first
      | exact Bool.noConfusion hab
      | exact Bool.noConfusion hbc
      | skip
    · have hk : compare (kindNum a.kind) (kindNum c.kind) = .lt :=
        Nat.compare_eq_lt.mpr (Nat.lt_trans (Nat.compare_eq_lt.mp h3) (Nat.compare_eq_lt.mp h4))
      simp [hk]
    · have he : kindNum b.kind = kindNum c.kind := Nat.compare_eq_eq.mp h4
      have hk : compare (kindNum a.kind) (kindNum c.kind) = .lt :=
        Nat.compare_eq_lt.mpr (he ▸ Nat.compare_eq_lt.mp h3)
      simp [hk]
    · have he : kindNum a.kind = kindNum b.kind := Nat.compare_eq_eq.mp h3
      have hk : compare (kindNum a.kind) (kindNum c.kind) = .lt :=
        Nat.compare_eq_lt.mpr (he ▸ Nat.compare_eq_lt.mp h4)
      simp [hk]
    · have hk : compare (kindNum a.kind) (kindNum c.kind) = .eq :=
        Nat.compare_eq_eq.mpr ((Nat.compare_eq_eq.mp h3).trans (Nat.compare_eq_eq.mp h4))
      simp only [hk]
      rcases h5 : strCmp (pathStr a.src) (pathStr b.src) with _ | _ | _ <;>
        rcases h6 : strCmp (pathStr b.src) (pathStr c.src) with _ | _ | _ <;>
          simp only [h5, h6] at hab hbc
      all_goals first
        | exact Bool.noConfusion hab
        | exact Bool.noConfusion hbc
        | skip
      · have hs : strCmp (pathStr a.src) (pathStr c.src) = .lt := strCmp_lt_trans h5 h6
        simp [hs]
      · have he : pathStr b.src = pathStr c.src := (strCmp_eq_iff _ _).mp h6
        have hs : strCmp (pathStr a.src) (pathStr c.src) = .lt := by rw [← he]; exact h5
        simp [hs]
      · have he : pathStr a.src = pathStr b.src := (strCmp_eq_iff _ _).mp h5
        have hs : strCmp (pathStr a.src) (pathStr c.src) = .lt := by rw [he]; exact h6
        simp [hs]
      · have hs : strCmp (pathStr a.src) (pathStr c.src) = .eq := (strCmp_eq_iff _ _).mpr
          (((strCmp_eq_iff _ _).mp h5).trans ((strCmp_eq_iff _ _).mp h6))
        simp [hs]

instance planLE.isTotal : IsTotal PlannedCopy planLE := ⟨planLE_total⟩

instance planLE.isTrans : IsTrans PlannedCopy planLE := ⟨planLE_trans⟩

theorem sortPlans_perm (plans : List PlannedCopy) : (sortPlans plans).Perm plans :=
  List.perm_insertionSort planLE plans

theorem sortPlans_sorted (plans : List PlannedCopy) : List.Pairwise planLE (sortPlans plans) :=
  List.sorted_insertionSort planLE plans

theorem mem_sortPlans {plans : List PlannedCopy} {p : PlannedCopy} :
    p ∈ sortPlans plans ↔ p ∈ plans :=
  (sortPlans_perm plans).mem_iff

theorem length_sortPlans (plans : List PlannedCopy) :
    (sortPlans plans).length = plans.length :=
  (sortPlans_perm plans).length_eq

/-! ## Filesystem and index basics -/

@[simp] theorem fsLookup_nil (p : FPath) : fsLookup [] p = none := rfl

@[simp] theorem fsLookup_cons (q : FPath) (c : Option Nat) (fs : FS) (p : FPath) :
    fsLookup ((q, c) :: fs) p = if p = q then some c else fsLookup fs p := rfl

theorem fsLookup_insert_self (fs : FS) (p : FPath) (c : Nat) :
    fsLookup (fsInsert fs p c) p = some (some c) := by
  simp [fsInsert]

theorem fsLookup_insert_of_ne (fs : FS) (q : FPath) (c : Nat) {p : FPath} (h : p ≠ q) :
    fsLookup (fsInsert fs q c) p = fsLookup fs p := by
  simp [fsInsert, h]

/-- Inserting at a currently non-existent path preserves every present
lookup result. -/
theorem fsLookup_insert_preserve {fs : FS} {q : FPath} {c : Nat} {p : FPath} {v : Option Nat}
    (hq : fsExists fs q = false) (hp : fsLookup fs p = some v) :
    fsLookup (fsInsert fs q c) p = some v := by
  rcases eq_or_ne p q with rfl | hne
  · rw [fsExists] at hq
    rw [hp] at hq
    exact Bool.noConfusion hq
  · rw [fsLookup_insert_of_ne fs q c hne]
    exact hp

theorem fsExists_insert_mono {fs : FS} {q : FPath} {c : Nat} {p : FPath}
    (h : fsExists fs p = true) : fsExists (fsInsert fs q c) p = true := by
  rw [fsExists, Option.isSome_iff_exists] at h ⊢
  obtain ⟨v, hv⟩ := h
  rcases eq_or_ne p q with rfl | hne
  · exact ⟨some c, by simp [fsInsert]⟩
  · exact ⟨v, by rwa [fsLookup_insert_of_ne fs q c hne]⟩

theorem fsExists_of_mem {fs : FS} {p : FPath} {v : Option Nat} (h : (p, v) ∈ fs) :
    fsExists fs p = true := by
  induction fs with
  | nil => cases h
  | cons hd tl ih =>
    obtain ⟨q, c⟩ := hd
    rcases List.mem_cons.mp h with heq | hmem
    · injection heq with h1 h2
      subst h1
      simp [fsExists]
    · by_cases hpq : p = q
      · simp [fsExists, hpq]
      · have := ih hmem
        rw [fsExists] at this ⊢
        rwa [fsLookup_cons, if_neg hpq]

@[simp] theorem seenGet_nil (h : Nat) : seenGet [] h = none := rfl

@[simp] theorem seenGet_cons (h' : Nat) (p : FPath) (s : List (Nat × FPath)) (h : Nat) :
    seenGet ((h', p) :: s) h = if h = h' then some p else seenGet s h := rfl

theorem seenContains_insert_mono {s : List (Nat × FPath)} {h x : Nat} {p : FPath}
    (hx : seenContains s x = true) : seenContains (seenInsert s h p) x = true := by
  rw [seenContains, Option.isSome_iff_exists] at hx ⊢
  obtain ⟨q, hq⟩ := hx
  rcases eq_or_ne x h with rfl | hne
  · exact ⟨p, by simp [seenInsert]⟩
  · exact ⟨q, by simpa [seenInsert, hne] using hq⟩

theorem seenContains_insert_self (s : List (Nat × FPath)) (h : Nat) (p : FPath) :
    seenContains (seenInsert s h p) h = true := by
  simp [seenContains, seenInsert]

/-! ## Lemmas about the disambiguation search -/

theorem euSearch_not_exists {fs : FS} {parent : List String} {stem sfx : String} :
    ∀ {i fuel : Nat} {fd : FPath}, euSearch fs parent stem sfx i fuel = some fd →
      fsExists fs fd = false ∧ fd.dir = parent := by
  intro i fuel
  induction fuel generalizing i with
  | zero => intro fd h; exact Option.noConfusion h
  | succ n ih =>
    intro fd h
    rw [euSearch] at h
    by_cases hex : fsExists fs ⟨parent, candName stem sfx i⟩ = true
    · rw [if_pos hex] at h
      exact ih h
    · rw [if_neg hex] at h
      injection h with h'
      subst h'
      exact ⟨Bool.eq_false_iff.mpr hex, rfl⟩

/-- A successful `_ensure_unique_path` result is a currently
non-existent path. -/
theorem ensure_unique_not_exists {fs : FS} {dst fd : FPath}
    (h : _ensure_unique_path fs dst = some fd) : fsExists fs fd = false := by
  rw [_ensure_unique_path] at h
  by_cases hex : fsExists fs dst = true
  · rw [if_pos hex] at h
    exact (euSearch_not_exists h).1
  · rw [if_neg hex] at h
    injection h with h'
    subst h'
    exact Bool.eq_false_iff.mpr hex

/-- A successful `_ensure_unique_path` result stays in the directory of
its argument. -/
theorem ensure_unique_dir {fs : FS} {dst fd : FPath}
    (h : _ensure_unique_path fs dst = some fd) : fd.dir = dst.dir := by
  rw [_ensure_unique_path] at h
  by_cases hex : fsExists fs dst = true
  · rw [if_pos hex] at h
    exact (euSearch_not_exists h).2
  · rw [if_neg hex] at h
    injection h with h'
    subst h'
    rfl

/-- If every candidate name in the searched range is taken, the search
exhausts. -/
theorem euSearch_exhaust {fs : FS} {parent : List String} {stem sfx : String} :
    ∀ (fuel i : Nat),
      (∀ j, i ≤ j → j < i + fuel → fsExists fs ⟨parent, candName stem sfx j⟩ = true) →
      euSearch fs parent stem sfx i fuel = none := by
  intro fuel
  induction fuel with
  | zero => intro i _; rfl
  | succ n ih =>
    intro i hall
    rw [euSearch]
    have hi : fsExists fs ⟨parent, candName stem sfx i⟩ = true :=
      hall i (Nat.le_refl i) (by omega)
    rw [if_pos hi]
    exact ih (i + 1) (fun j hj1 hj2 => hall j (by omega) (by omega))

/-! ## Branch equations for the first pass -/

/-- The report entry the first pass produces for one plan from a given
state (used to reason about the report list). -/
def entry1 (st : St1) (p : PlannedCopy) : RepEntry :=
  match _hash_file st.fs p.src with
  | none => mkRep p "error" none
  | some srcHash =>
    if seenContains st.seen srcHash then mkRep p "skipped_duplicate" (some srcHash)
    else if fsExists st.fs p.dst then
      if _hash_file st.fs p.dst = some srcHash then
        mkRep p "already_present_same_content" (some srcHash)
      else mkRep p "collision_deferred" (some srcHash)
    else mkRep p "copied" (some srcHash)

theorem step1_error {st : St1} {p : PlannedCopy} (h : _hash_file st.fs p.src = none) :
    step1 st p = { st with report := st.report ++ [mkRep p "error" none] } := by
  simp [step1, h]

theorem step1_dup {st : St1} {p : PlannedCopy} {hsh : Nat}
    (h1 : _hash_file st.fs p.src = some hsh) (h2 : seenContains st.seen hsh = true) :
    step1 st p = { st with
      dups := st.dups ++ [⟨p.src, p.dst, p.kind, p.group_id, seenGet st.seen hsh, hsh⟩],
      report := st.report ++ [mkRep p "skipped_duplicate" (some hsh)] } := by
  simp [step1, h1, h2]

theorem step1_already {st : St1} {p : PlannedCopy} {hsh : Nat}
    (h1 : _hash_file st.fs p.src = some hsh) (h2 : seenContains st.seen hsh = false)
    (h3 : fsExists st.fs p.dst = true) (h4 : _hash_file st.fs p.dst = some hsh) :
    step1 st p = { st with
      seen := seenInsert st.seen hsh p.dst,
      report := st.report ++ [mkRep p "already_present_same_content" (some hsh)] } := by
  simp [step1, h1, h2, h3, h4]

theorem step1_collision {st : St1} {p : PlannedCopy} {hsh : Nat}
    (h1 : _hash_file st.fs p.src = some hsh) (h2 : seenContains st.seen hsh = false)
    (h3 : fsExists st.fs p.dst = true) (h4 : ¬ _hash_file st.fs p.dst = some hsh) :
    step1 st p = { st with
      cols := st.cols ++ [⟨p.src, p.dst, p.kind, p.group_id, hsh, _hash_file st.fs p.dst⟩],
      report := st.report ++ [mkRep p "collision_deferred" (some hsh)] } := by
  simp [step1, h1, h2, h3, h4]

theorem step1_copy {st : St1} {p : PlannedCopy} {hsh : Nat}
    (h1 : _hash_file st.fs p.src = some hsh) (h2 : seenContains st.seen hsh = false)
    (h3 : fsExists st.fs p.dst = false) :
    step1 st p = { st with
      fs := fsInsert st.fs p.dst hsh,
      seen := seenInsert st.seen hsh p.dst,
      report := st.report ++ [mkRep p "copied" (some hsh)] } := by
  simp [step1, h1, h2, h3]

theorem step1_report (st : St1) (p : PlannedCopy) :
    (step1 st p).report = st.report ++ [entry1 st p] := by
  rcases h : _hash_file st.fs p.src with _ | hsh
  · rw [step1_error h]; simp [entry1, h]
  · by_cases h2 : seenContains st.seen hsh = true
    · rw [step1_dup h h2]; simp [entry1, h, h2]
    · rw [Bool.not_eq_true] at h2
      by_cases h3 : fsExists st.fs p.dst = true
      · by_cases h4 : _hash_file st.fs p.dst = some hsh
        · rw [step1_already h h2 h3 h4]; simp [entry1, h, h2, h3, h4]
        · rw [step1_collision h h2 h3 h4]; simp [entry1, h, h2, h3, h4]
      · rw [Bool.not_eq_true] at h3
        rw [step1_copy h h2 h3]; simp [entry1, h, h2, h3]

theorem step1_fs_mono {st : St1} {q : PlannedCopy} {p : FPath} {v : Option Nat}
    (hp : fsLookup st.fs p = some v) : fsLookup (step1 st q).fs p = some v := by
  rcases h : _hash_file st.fs q.src with _ | hsh
  · rw [step1_error h]; exact hp
  · by_cases h2 : seenContains st.seen hsh = true
    · rw [step1_dup h h2]; exact hp
    · rw [Bool.not_eq_true] at h2
      by_cases h3 : fsExists st.fs q.dst = true
      · by_cases h4 : _hash_file st.fs q.dst = some hsh
        · rw [step1_already h h2 h3 h4]; exact hp
        · rw [step1_collision h h2 h3 h4]; exact hp
      · rw [Bool.not_eq_true] at h3
        rw [step1_copy h h2 h3]
        exact fsLookup_insert_preserve h3 hp

theorem step1_seen_mono {st : St1} {q : PlannedCopy} {x : Nat}
    (hx : seenContains st.seen x = true) : seenContains (step1 st q).seen x = true := by
  rcases h : _hash_file st.fs q.src with _ | hsh
  · rw [step1_error h]; exact hx
  · by_cases h2 : seenContains st.seen hsh = true
    · rw [step1_dup h h2]; exact hx
    · rw [Bool.not_eq_true] at h2
      by_cases h3 : fsExists st.fs q.dst = true
      · by_cases h4 : _hash_file st.fs q.dst = some hsh
        · rw [step1_already h h2 h3 h4]; exact seenContains_insert_mono hx
        · rw [step1_collision h h2 h3 h4]; exact hx
      · rw [Bool.not_eq_true] at h3
        rw [step1_copy h h2 h3]
        exact seenContains_insert_mono hx

/-- The first pass changes the filesystem at most at the destination of
the processed plan. -/
theorem step1_fs_other {st : St1} {q : PlannedCopy} {p : FPath} (hne : p ≠ q.dst) :
    fsLookup (step1 st q).fs p = fsLookup st.fs p := by
  rcases h : _hash_file st.fs q.src with _ | hsh
  · rw [step1_error h]
  · by_cases h2 : seenContains st.seen hsh = true
    · rw [step1_dup h h2]
    · rw [Bool.not_eq_true] at h2
      by_cases h3 : fsExists st.fs q.dst = true
      · by_cases h4 : _hash_file st.fs q.dst = some hsh
        · rw [step1_already h h2 h3 h4]
        · rw [step1_collision h h2 h3 h4]
      · rw [Bool.not_eq_true] at h3
        rw [step1_copy h h2 h3]
        exact fsLookup_insert_of_ne st.fs q.dst hsh hne

/-! ## Fold lemmas for the first pass -/

/-- The sequence of report entries produced by the first pass. -/
def pass1Entries : St1 → List PlannedCopy → List RepEntry
  | _, [] => []
  | st, p :: ps => entry1 st p :: pass1Entries (step1 st p) ps

theorem foldl_step1_report : ∀ (ps : List PlannedCopy) (st : St1),
    (List.foldl step1 st ps).report = st.report ++ pass1Entries st ps
  | [], st => by simp [pass1Entries]
  | p :: ps, st => by
    rw [List.foldl_cons, foldl_step1_report ps (step1 st p), step1_report, pass1Entries]
    simp

theorem pass1Entries_length : ∀ (st : St1) (ps : List PlannedCopy),
    (pass1Entries st ps).length = ps.length
  | _, [] => rfl
  | st, p :: ps => by rw [pass1Entries, List.length_cons, pass1Entries_length, List.length_cons]

theorem foldl_step1_fs_mono : ∀ (ps : List PlannedCopy) (st : St1) {p : FPath} {v : Option Nat},
    fsLookup st.fs p = some v → fsLookup (List.foldl step1 st ps).fs p = some v
  | [], _, _, _, hp => hp
  | q :: ps, st, p, v, hp =>
    foldl_step1_fs_mono ps (step1 st q) (step1_fs_mono hp)

theorem foldl_step1_seen_mono : ∀ (ps : List PlannedCopy) (st : St1) {x : Nat},
    seenContains st.seen x = true → seenContains (List.foldl step1 st ps).seen x = true
  | [], _, _, hx => hx
  | q :: ps, st, x, hx =>
    foldl_step1_seen_mono ps (step1 st q) (step1_seen_mono hx)

/-- The first pass only writes inside the destination directories of its
plans. -/
theorem foldl_step1_fs_outside : ∀ (ps : List PlannedCopy) (st : St1) {base : List String}
    {p : FPath}, (∀ q ∈ ps, underDir base q.dst = true) → underDir base p = false →
    fsLookup (List.foldl step1 st ps).fs p = fsLookup st.fs p
  | [], _, _, _, _, _ => rfl
  | q :: ps, st, base, p, hall, hout => by
    rw [List.foldl_cons,
      foldl_step1_fs_outside ps (step1 st q) (fun r hr => hall r (List.mem_cons_of_mem q hr)) hout,
      step1_fs_other]
    intro hpd
    subst hpd
    rw [hall q (List.mem_cons_self q ps)] at hout
    exact Bool.noConfusion hout

/-! ## Branch equations for the collision-resolution pass -/

theorem step2_dupafter {policy : String} {cdir : List String} {st : St2} {c : ColEntry}
    (h : seenContains st.seen c.src_hash = true) :
    step2 policy cdir st c =
      .ok { st with applied := st.applied ++ [⟨c, "skipped_duplicate_after_policy", none⟩] } := by
  simp [step2, h]

theorem step2_skip {cdir : List String} {st : St2} {c : ColEntry}
    (h : seenContains st.seen c.src_hash = false) :
    step2 "skip" cdir st c =
      .ok { st with applied := st.applied ++ [⟨c, "skipped_collision", none⟩] } := by
  simp [step2, h]

theorem step2_exhaust {policy : String} {cdir : List String} {st : St2} {c : ColEntry}
    (h1 : seenContains st.seen c.src_hash = false) (h2 : policy ≠ "skip")
    (h3 : finalDst policy cdir st c = none) :
    step2 policy cdir st c = .error "Could not find a free name" := by
  simp [step2, h1, h2, h3]

theorem step2_copy_eq {policy : String} {cdir : List String} {st : St2} {c : ColEntry} {fd : FPath}
    (h1 : seenContains st.seen c.src_hash = false) (h2 : policy ≠ "skip")
    (h3 : finalDst policy cdir st c = some fd) :
    step2 policy cdir st c =
      .ok { fs := fsInsert st.fs fd c.src_hash,
            seen := seenInsert st.seen c.src_hash fd,
            renames :=
              if c.kind = "media" ∧ pstem fd ≠ pstem c.dst
              then (c.group_id, pstem c.dst, pstem fd, fd.dir) :: st.renames
              else st.renames,
            applied := st.applied ++ [⟨c, "copied_after_collision", some fd⟩] } := by
  simp [step2, h1, h2, h3]

/-- A successful `step2` never removes or changes a present file. -/
theorem step2_fs_mono {policy : String} {cdir : List String} {st st' : St2} {c : ColEntry}
    (h : step2 policy cdir st c = .ok st') {p : FPath} {v : Option Nat}
    (hp : fsLookup st.fs p = some v) : fsLookup st'.fs p = some v := by
  by_cases h1 : seenContains st.seen c.src_hash = true
  · rw [step2_dupafter h1] at h
    injection h with h'
    subst h'
    exact hp
  · rw [Bool.not_eq_true] at h1
    by_cases h2 : policy = "skip"
    · subst h2
      rw [step2_skip h1] at h
      injection h with h'
      subst h'
      exact hp
    · rcases h3 : finalDst policy cdir st c with _ | fd
      · rw [step2_exhaust h1 h2 h3] at h
        exact Except.noConfusion h
      · rw [step2_copy_eq h1 h2 h3] at h
        injection h with h'
        subst h'
        have hfree : fsExists st.fs fd = false := by
          unfold finalDst at h3
          rcases hbr : (if c.kind = "sidecar" then renLookup st.renames c.group_id else none) with
            _ | tri
          · rw [hbr] at h3
            by_cases h4 : policy = "rename" <;> simp [h4] at h3 <;>
              exact ensure_unique_not_exists h3
          · obtain ⟨os, ns, np⟩ := tri
            rw [hbr] at h3
            exact ensure_unique_not_exists h3
        exact fsLookup_insert_preserve hfree hp

theorem step2_seen_mono {policy : String} {cdir : List String} {st st' : St2} {c : ColEntry}
    (h : step2 policy cdir st c = .ok st') {x : Nat}
    (hx : seenContains st.seen x = true) : seenContains st'.seen x = true := by
  by_cases h1 : seenContains st.seen c.src_hash = true
  · rw [step2_dupafter h1] at h
    injection h with h'
    subst h'
    exact hx
  · rw [Bool.not_eq_true] at h1
    by_cases h2 : policy = "skip"
    · subst h2
      rw [step2_skip h1] at h
      injection h with h'
      subst h'
      exact hx
    · rcases h3 : finalDst policy cdir st c with _ | fd
      · rw [step2_exhaust h1 h2 h3] at h
        exact Except.noConfusion h
      · rw [step2_copy_eq h1 h2 h3] at h
        injection h with h'
        subst h'
        exact seenContains_insert_mono hx

theorem pass2_cons_ok {policy : String} {cdir : List String} {st st' : St2} {c : ColEntry}
    {rest : List ColEntry} (h : step2 policy cdir st c = .ok st') :
    pass2 policy cdir st (c :: rest) = pass2 policy cdir st' rest := by
  rw [pass2, h]

theorem pass2_cons_err {policy : String} {cdir : List String} {st : St2} {c : ColEntry}
    {rest : List ColEntry} {e : String} (h : step2 policy cdir st c = .error e) :
    pass2 policy cdir st (c :: rest) = (st, true) := by
  rw [pass2, h]

theorem pass2_fs_mono {policy : String} {cdir : List String} :
    ∀ (cs : List ColEntry) (st : St2) {p : FPath} {v : Option Nat},
      fsLookup st.fs p = some v → fsLookup (pass2 policy cdir st cs).1.fs p = some v := by
  intro cs
  induction cs with
  | nil => intro st p v hp; exact hp
  | cons c rest ih =>
    intro st p v hp
    rcases h : step2 policy cdir st c with e | st'
    · rw [pass2_cons_err h]
      exact hp
    · rw [pass2_cons_ok h]
      exact ih st' (step2_fs_mono h hp)

/-- Under the `skip` policy the resolution pass touches nothing and
never aborts: only the applied log grows. -/
theorem pass2_skip_policy {cdir : List String} :
    ∀ (cs : List ColEntry) (st : St2),
      (pass2 "skip" cdir st cs).1.fs = st.fs ∧ (pass2 "skip" cdir st cs).1.seen = st.seen ∧
        (pass2 "skip" cdir st cs).2 = false := by
  intro cs
  induction cs with
  | nil => intro st; exact ⟨rfl, rfl, rfl⟩
  | cons c rest ih =>
    intro st
    by_cases h1 : seenContains st.seen c.src_hash = true
    · rw [pass2_cons_ok (step2_dupafter h1)]
      exact ih _
    · rw [Bool.not_eq_true] at h1
      rw [pass2_cons_ok (step2_skip h1)]
      exact ih _

/-! ## Destination-index lemmas -/

/-- Key membership in a hash index. -/
def idxHas (idx : List (Nat × List FPath)) (h : Nat) : Bool := idx.any (fun e => e.1 = h)

theorem idxAdd_has_self (idx : List (Nat × List FPath)) (h : Nat) (p : FPath) :
    idxHas (idxAdd idx h p) h = true := by
  induction idx with
  | nil => simp [idxAdd, idxHas]
  | cons e rest ih =>
    obtain ⟨h', ps⟩ := e
    by_cases he : h' = h
    · simp [idxAdd, he, idxHas]
    · simp only [idxAdd, if_neg he, idxHas, List.any_cons]
      rw [idxHas] at ih
      simp [ih]

theorem idxAdd_has_mono {idx : List (Nat × List FPath)} {x : Nat} (h : Nat) (p : FPath)
    (hx : idxHas idx x = true) : idxHas (idxAdd idx h p) x = true := by
  induction idx with
  | nil => simp [idxHas] at hx
  | cons e rest ih =>
    obtain ⟨h', ps⟩ := e
    by_cases he : h' = h
    · simp only [idxAdd, if_pos he]
      simp only [idxHas, List.any_cons] at hx ⊢
      exact hx
    · simp only [idxAdd, if_neg he]
      simp only [idxHas, List.any_cons] at hx ⊢
      rcases Bool.or_eq_true_iff.mp hx with h1 | h1
      · rw [h1]; simp
      · have h2 := ih h1
        rw [idxHas] at h2
        rw [h2]
        simp

/-- One step of the destination-indexer fold. -/
def idxStep (destRoot : List String) (idx : List (Nat × List FPath)) (pc : FPath × Option Nat) :
    List (Nat × List FPath) :=
  if underDir destRoot pc.1 ∧ pc.1.name ∉ skipNames then
    match pc.2 with
    | some c => idxAdd idx c pc.1
    | none => idx
  else idx

theorem build_dest_hash_index_eq (fs : FS) (destRoot : List String) :
    build_dest_hash_index fs destRoot = fs.foldl (idxStep destRoot) [] := by
  rw [build_dest_hash_index]
  rfl

theorem idxStep_has_mono {destRoot : List String} {idx : List (Nat × List FPath)} {x : Nat}
    (pc : FPath × Option Nat) (hx : idxHas idx x = true) :
    idxHas (idxStep destRoot idx pc) x = true := by
  rw [idxStep]
  by_cases hu : underDir destRoot pc.1 ∧ pc.1.name ∉ skipNames
  · rw [if_pos hu]
    rcases pc.2 with _ | c
    · exact hx
    · exact idxAdd_has_mono c pc.1 hx
  · rw [if_neg hu]
    exact hx

theorem foldl_idxStep_has_mono {destRoot : List String} :
    ∀ (fs : FS) (idx : List (Nat × List FPath)) {x : Nat}, idxHas idx x = true →
      idxHas (fs.foldl (idxStep destRoot) idx) x = true
  | [], _, _, hx => hx
  | pc :: rest, idx, x, hx =>
    foldl_idxStep_has_mono rest (idxStep destRoot idx pc) (idxStep_has_mono pc hx)

/-- Completeness of the destination index: a readable payload file under
the root contributes its fingerprint to the index. -/
theorem build_index_complete {destRoot : List String} :
    ∀ {fs : FS} {p : FPath} {h : Nat}, (p, some h) ∈ fs → underDir destRoot p = true →
      p.name ∉ skipNames → idxHas (build_dest_hash_index fs destRoot) h = true := by
  have main : ∀ (fs : FS) (idx : List (Nat × List FPath)) {p : FPath} {h : Nat},
      (p, some h) ∈ fs → underDir destRoot p = true → p.name ∉ skipNames →
      idxHas (fs.foldl (idxStep destRoot) idx) h = true := by
    intro fs
    induction fs with
    | nil => intro idx p h hmem; cases hmem
    | cons pc rest ih =>
      intro idx p h hmem hu hn
      rcases List.mem_cons.mp hmem with heq | hmem'
      · subst heq
        rw [List.foldl_cons]
        apply foldl_idxStep_has_mono
        rw [idxStep, if_pos ⟨hu, hn⟩]
        exact idxAdd_has_self idx h p
      · rw [List.foldl_cons]
        exact ih (idxStep destRoot idx pc) hmem' hu hn
  intro fs p h hmem hu hn
  rw [build_dest_hash_index_eq]
  exact main fs [] hmem hu hn

/-- All buckets of an index are non-empty. -/
def idxWF (idx : List (Nat × List FPath)) : Prop := ∀ e ∈ idx, e.2 ≠ []

theorem idxWF_nil : idxWF [] := by intro e he; cases he

theorem idxWF_idxAdd {idx : List (Nat × List FPath)} (h : Nat) (p : FPath) (hwf : idxWF idx) :
    idxWF (idxAdd idx h p) := by
  induction idx with
  | nil =>
    intro e he
    rcases List.mem_cons.mp he with heq | h0
    · subst heq; simp
    · cases h0
  | cons e0 rest ih =>
    obtain ⟨h', ps⟩ := e0
    by_cases he : h' = h
    · rw [idxAdd, if_pos he]
      intro e hme
      rcases List.mem_cons.mp hme with heq | hmem
      · subst heq; simp
      · exact hwf e (List.mem_cons_of_mem _ hmem)
    · rw [idxAdd, if_neg he]
      intro e hme
      rcases List.mem_cons.mp hme with heq | hmem
      · subst heq
        exact hwf (h', ps) (List.mem_cons_self _ _)
      · exact ih (fun e' he' => hwf e' (List.mem_cons_of_mem _ he')) e hmem

theorem idxWF_idxStep {destRoot : List String} {idx : List (Nat × List FPath)}
    (pc : FPath × Option Nat) (hwf : idxWF idx) : idxWF (idxStep destRoot idx pc) := by
  rw [idxStep]
  by_cases hu : underDir destRoot pc.1 ∧ pc.1.name ∉ skipNames
  · rw [if_pos hu]
    rcases pc.2 with _ | c
    · exact hwf
    · exact idxWF_idxAdd c pc.1 hwf
  · rw [if_neg hu]
    exact hwf

theorem idxWF_build (fs : FS) (destRoot : List String) :
    idxWF (build_dest_hash_index fs destRoot) := by
  rw [build_dest_hash_index_eq]
  have main : ∀ (l : FS) (idx : List (Nat × List FPath)), idxWF idx →
      idxWF (l.foldl (idxStep destRoot) idx) := by
    intro l
    induction l with
    | nil => intro idx h; exact h
    | cons pc rest ih => intro idx h; exact ih _ (idxWF_idxStep pc h)
  exact main fs [] idxWF_nil

/-- A fingerprint present in a well-formed index is present in the
`seen_hashes` dictionary built from it. -/
theorem initialSeen_contains {idx : List (Nat × List FPath)} {h : Nat}
    (hwf : idxWF idx) (hh : idxHas idx h = true) :
    seenContains (initialSeen idx) h = true := by
  induction idx with
  | nil => simp [idxHas] at hh
  | cons e rest ih =>
    obtain ⟨h', ps⟩ := e
    have hps : ps ≠ [] := hwf (h', ps) (List.mem_cons_self _ _)
    obtain ⟨p0, ps', rfl⟩ := List.exists_cons_of_ne_nil hps
    rw [idxHas, List.any_cons] at hh
    by_cases he : h' = h
    · subst he
      rw [seenContains, initialSeen]
      simp [List.filterMap_cons, seenGet]
    · simp only [he] at hh
      have hrest : idxHas rest h = true := by
        simpa [idxHas, decide_eq_true_eq, he] using hh
      have hih := ih (fun e' he' => hwf e' (List.mem_cons_of_mem _ he')) hrest
      have hIS : initialSeen ((h', p0 :: ps') :: rest) = (h', p0) :: initialSeen rest := rfl
      rw [seenContains] at hih
      rw [seenContains, hIS, seenGet_cons, if_neg (fun hc => he hc.symm)]
      exact hih

/-- Indexing a tree with no files under the root gives the empty index. -/
theorem build_index_empty {destRoot : List String} :
    ∀ {fs : FS}, (∀ pc ∈ fs, underDir destRoot pc.1 = false) →
      build_dest_hash_index fs destRoot = [] := by
  have main : ∀ (l : FS) (idx : List (Nat × List FPath)),
      (∀ pc ∈ l, underDir destRoot pc.1 = false) →
      l.foldl (idxStep destRoot) idx = idx := by
    intro l
    induction l with
    | nil => intro idx _; rfl
    | cons pc rest ih =>
      intro idx hall
      rw [List.foldl_cons]
      have h1 : underDir destRoot pc.1 = false := hall pc (List.mem_cons_self _ _)
      have h2 : idxStep destRoot idx pc = idx := by
        rw [idxStep, if_neg]
        intro hcon
        rw [h1] at hcon
        exact Bool.noConfusion hcon.1
      rw [h2]
      exact ih idx (fun q hq => hall q (List.mem_cons_of_mem _ hq))
  intro fs hall
  rw [build_dest_hash_index_eq]
  exact main fs [] hall

/-! ## Projections of the full run -/

theorem mem_of_fsLookup : ∀ {fs : FS} {p : FPath} {v : Option Nat},
    fsLookup fs p = some v → (p, v) ∈ fs := by
  intro fs
  induction fs with
  | nil => intro p v h; exact Option.noConfusion h
  | cons pc rest ih =>
    intro p v h
    obtain ⟨q, c⟩ := pc
    rw [fsLookup_cons] at h
    by_cases hpq : p = q
    · rw [if_pos hpq] at h
      injection h with h'
      subst hpq
      subst h'
      exact List.mem_cons_self _ _
    · rw [if_neg hpq] at h
      exact List.mem_cons_of_mem _ (ih h)

theorem cwp_report (plans : List PlannedCopy) (idx : List (Nat × List FPath))
    (base : List String) (pol : String) (fs0 : FS) :
    (copy_with_policy plans idx base pol fs0).report = (pass1St plans idx fs0).report := by
  rw [copy_with_policy]
  by_cases h : (pass1St plans idx fs0).cols.isEmpty <;> simp [h]

theorem cwp_cols (plans : List PlannedCopy) (idx : List (Nat × List FPath))
    (base : List String) (pol : String) (fs0 : FS) :
    (copy_with_policy plans idx base pol fs0).cols = (pass1St plans idx fs0).cols := by
  rw [copy_with_policy]
  by_cases h : (pass1St plans idx fs0).cols.isEmpty <;> simp [h]

theorem cwp_dups (plans : List PlannedCopy) (idx : List (Nat × List FPath))
    (base : List String) (pol : String) (fs0 : FS) :
    (copy_with_policy plans idx base pol fs0).dups = (pass1St plans idx fs0).dups := by
  rw [copy_with_policy]
  by_cases h : (pass1St plans idx fs0).cols.isEmpty <;> simp [h]

theorem cwp_fs (plans : List PlannedCopy) (idx : List (Nat × List FPath))
    (base : List String) (pol : String) (fs0 : FS) :
    (copy_with_policy plans idx base pol fs0).fs =
      (pass2 pol (base ++ ["conflicts"])
        ⟨(pass1St plans idx fs0).fs, (pass1St plans idx fs0).seen, [], []⟩
        (pass1St plans idx fs0).cols).1.fs := by
  rw [copy_with_policy]
  by_cases h : (pass1St plans idx fs0).cols = []
  · simp [h, pass2]
  · simp [h]

theorem cwp_aborted (plans : List PlannedCopy) (idx : List (Nat × List FPath))
    (base : List String) (pol : String) (fs0 : FS) :
    (copy_with_policy plans idx base pol fs0).aborted =
      (pass2 pol (base ++ ["conflicts"])
        ⟨(pass1St plans idx fs0).fs, (pass1St plans idx fs0).seen, [], []⟩
        (pass1St plans idx fs0).cols).2 := by
  rw [copy_with_policy]
  by_cases h : (pass1St plans idx fs0).cols = []
  · simp [h, pass2]
  · simp [h]

theorem pass1St_report (plans : List PlannedCopy) (idx : List (Nat × List FPath)) (fs0 : FS) :
    (pass1St plans idx fs0).report =
      pass1Entries ⟨fs0, initialSeen idx, [], [], []⟩ (sortPlans plans) := by
  rw [pass1St, foldl_step1_report]
  rfl

/-- `countContent` grows by one exactly when the inserted content is the
counted one. -/
theorem countContent_insert (fs : FS) (p : FPath) (c h : Nat) :
    countContent (fsInsert fs p c) h =
      countContent fs h + (if c = h then 1 else 0) := by
  by_cases hc : c = h
  · simp [countContent, fsInsert, List.filter_cons, hc]
  · simp only [countContent, fsInsert, List.filter_cons]
    have : (decide ((some c : Option Nat) = some h)) = false := by
      simp [hc]
    rw [this]
    simp [hc]

/-! ## Simulation of a second run over the first run's destination -/

theorem step1_dup_facts {st : St1} {p : PlannedCopy} {hsh : Nat}
    (h1 : _hash_file st.fs p.src = some hsh) (h2 : seenContains st.seen hsh = true) :
    (step1 st p).fs = st.fs ∧ (step1 st p).seen = st.seen ∧
      entry1 st p = mkRep p "skipped_duplicate" (some hsh) := by
  rw [step1_dup h1 h2]
  refine ⟨rfl, rfl, ?_⟩
  simp [entry1, h1, h2]

/-- Whenever the plan's fingerprint is already known or its destination
exists, the first pass does not copy: the filesystem is unchanged and
the seen set only grows. -/
theorem step1_keep_facts {st : St1} {p : PlannedCopy} {hsh : Nat}
    (h1 : _hash_file st.fs p.src = some hsh)
    (h2 : seenContains st.seen hsh = true ∨ fsExists st.fs p.dst = true) :
    (step1 st p).fs = st.fs ∧
      ∀ x, seenContains st.seen x = true → seenContains (step1 st p).seen x = true := by
  by_cases hs : seenContains st.seen hsh = true
  · rw [step1_dup h1 hs]
    exact ⟨rfl, fun x hx => hx⟩
  · rw [Bool.not_eq_true] at hs
    have hex : fsExists st.fs p.dst = true := by
      rcases h2 with h2 | h2
      · rw [hs] at h2; exact Bool.noConfusion h2
      · exact h2
    by_cases hd : _hash_file st.fs p.dst = some hsh
    · rw [step1_already h1 hs hex hd]
      exact ⟨rfl, fun x hx => seenContains_insert_mono hx⟩
    · rw [step1_collision h1 hs hex hd]
      exact ⟨rfl, fun x hx => hx⟩

theorem hash_file_eq_lookup {fs : FS} {p : FPath} {h : Nat}
    (hh : _hash_file fs p = some h) : fsLookup fs p = some (some h) := by
  unfold _hash_file at hh
  rcases hlk : fsLookup fs p with _ | c
  · rw [hlk] at hh
    exact Option.noConfusion hh
  · rcases c with _ | c0
    · rw [hlk] at hh
      exact Option.noConfusion hh
    · rw [hlk] at hh
      injection hh with h2
      rw [h2]

theorem run2_sim (base : List String) :
    ∀ (ps : List PlannedCopy) (A B : St1),
      (∀ q ∈ ps, underDir base q.dst = true ∧ q.dst.name ∉ skipNames ∧
        underDir base q.src = false) →
      B.fs = (List.foldl step1 A ps).fs →
      (∀ x, seenContains A.seen x = true → seenContains B.seen x = true) →
      (∀ p hsh, underDir base p = true → p.name ∉ skipNames →
        fsLookup (List.foldl step1 A ps).fs p = some (some hsh) →
        seenContains B.seen hsh = true) →
      (List.foldl step1 B ps).fs = B.fs ∧
      List.Forall₂ (fun e1 e2 =>
        (e1.status = "copied" ∨ e1.status = "skipped_duplicate") →
          e2.status = "skipped_duplicate") (pass1Entries A ps) (pass1Entries B ps) := by
  intro ps
  induction ps with
  | nil => intro A B _ _ _ _; exact ⟨rfl, List.Forall₂.nil⟩
  | cons p rest ih =>
    intro A B hps hBfs hP2 hP3
    obtain ⟨hdst, hdname, hsrc⟩ := hps p (List.mem_cons_self p rest)
    have hrest : ∀ q ∈ rest, underDir base q.dst = true ∧ q.dst.name ∉ skipNames ∧
        underDir base q.src = false := fun q hq => hps q (List.mem_cons_of_mem p hq)
    -- the source is outside the destination, so both runs hash it alike
    have hsrcEq : _hash_file B.fs p.src = _hash_file A.fs p.src := by
      have h1 : fsLookup B.fs p.src = fsLookup A.fs p.src := by
        rw [hBfs]
        exact foldl_step1_fs_outside (p :: rest) A (fun q hq => (hps q hq).1) hsrc
      unfold _hash_file
      rw [h1]
    rcases hA : _hash_file A.fs p.src with _ | hsh
    · -- run 1 recorded an error; run 2 errors identically
      have hB : _hash_file B.fs p.src = none := by rw [hsrcEq, hA]
      have hAfs0 : (step1 A p).fs = A.fs := by rw [step1_error hA]
      have hAsn : (step1 A p).seen = A.seen := by rw [step1_error hA]
      have hBfs0 : (step1 B p).fs = B.fs := by rw [step1_error hB]
      have hBsn : (step1 B p).seen = B.seen := by rw [step1_error hB]
      obtain ⟨ihfs, ihrel⟩ := ih (step1 A p) (step1 B p) hrest
        (by rw [hBfs0, hBfs, List.foldl_cons])
        (by rw [hAsn, hBsn]; exact hP2)
        (by
          rw [hBsn]
          intro q hq hu hn hlk
          exact hP3 q hq hu hn (by rw [List.foldl_cons]; exact hlk))
      constructor
      · rw [List.foldl_cons, ihfs, hBfs0]
      · rw [pass1Entries, pass1Entries]
        refine List.Forall₂.cons ?_ ihrel
        have he1 : entry1 A p = mkRep p "error" none := by simp [entry1, hA]
        have he2 : entry1 B p = mkRep p "error" none := by simp [entry1, hB]
        rw [he1, he2]
        intro hcon
        rcases hcon with h | h <;> exact absurd h (by simp [mkRep])
    · -- run 1 hashed the source
      have hB : _hash_file B.fs p.src = some hsh := by rw [hsrcEq, hA]
      by_cases hAseen : seenContains A.seen hsh = true
      · -- run 1: skipped_duplicate; run 2: skipped_duplicate
        have hBseen : seenContains B.seen hsh = true := hP2 hsh hAseen
        obtain ⟨hAfs0, hAsn, _⟩ := step1_dup_facts hA hAseen
        obtain ⟨hBfs0, hBsn, hBe⟩ := step1_dup_facts hB hBseen
        obtain ⟨ihfs, ihrel⟩ := ih (step1 A p) (step1 B p) hrest
          (by rw [hBfs0, hBfs, List.foldl_cons])
          (by rw [hAsn, hBsn]; exact hP2)
          (by
            rw [hBsn]
            intro q hq hu hn hlk
            exact hP3 q hq hu hn (by rw [List.foldl_cons]; exact hlk))
        constructor
        · rw [List.foldl_cons, ihfs, hBfs0]
        · rw [pass1Entries, pass1Entries]
          refine List.Forall₂.cons ?_ ihrel
          rw [hBe]
          intro _
          rfl
      · rw [Bool.not_eq_true] at hAseen
        by_cases hAex : fsExists A.fs p.dst = true
        · -- run 1: already-present or deferred collision
          have hBex : fsExists B.fs p.dst = true := by
            rw [fsExists, Option.isSome_iff_exists] at hAex ⊢
            obtain ⟨v, hv⟩ := hAex
            refine ⟨v, ?_⟩
            rw [hBfs]
            exact foldl_step1_fs_mono (p :: rest) A hv
          by_cases hAd : _hash_file A.fs p.dst = some hsh
          · -- already_present_same_content in run 1
            have hAeq := step1_already hA hAseen hAex hAd
            have hAfs0 : (step1 A p).fs = A.fs := by rw [hAeq]
            have hAsn : (step1 A p).seen = seenInsert A.seen hsh p.dst := by rw [hAeq]
            have hBseen : seenContains B.seen hsh = true := by
              refine hP3 p.dst hsh hdst hdname ?_
              exact foldl_step1_fs_mono (p :: rest) A (hash_file_eq_lookup hAd)
            obtain ⟨hBfs0, hBsn, _⟩ := step1_dup_facts hB hBseen
            obtain ⟨ihfs, ihrel⟩ := ih (step1 A p) (step1 B p) hrest
              (by rw [hBfs0, hBfs, List.foldl_cons])
              (by
                rw [hAsn, hBsn]
                intro x hx
                by_cases hxh : x = hsh
                · subst hxh
                  exact hBseen
                · rw [seenContains, seenInsert, seenGet_cons, if_neg hxh] at hx
                  exact hP2 x hx)
              (by
                rw [hBsn]
                intro q hq hu hn hlk
                exact hP3 q hq hu hn (by rw [List.foldl_cons]; exact hlk))
            constructor
            · rw [List.foldl_cons, ihfs, hBfs0]
            · rw [pass1Entries, pass1Entries]
              refine List.Forall₂.cons ?_ ihrel
              have he1 : entry1 A p = mkRep p "already_present_same_content" (some hsh) := by
                simp [entry1, hA, hAseen, hAex, hAd]
              rw [he1]
              intro hcon
              rcases hcon with h | h <;> exact absurd h (by simp [mkRep])
          · -- collision_deferred in run 1
            have hAeq := step1_collision hA hAseen hAex hAd
            have hAfs0 : (step1 A p).fs = A.fs := by rw [hAeq]
            have hAsn : (step1 A p).seen = A.seen := by rw [hAeq]
            obtain ⟨hBfs0, hBsnMono⟩ := step1_keep_facts hB (Or.inr hBex)
            obtain ⟨ihfs, ihrel⟩ := ih (step1 A p) (step1 B p) hrest
              (by rw [hBfs0, hBfs, List.foldl_cons])
              (by
                rw [hAsn]
                intro x hx
                exact hBsnMono x (hP2 x hx))
              (by
                intro q hq hu hn hlk
                exact hBsnMono hq (hP3 q hq hu hn (by rw [List.foldl_cons]; exact hlk)))
            constructor
            · rw [List.foldl_cons, ihfs, hBfs0]
            · rw [pass1Entries, pass1Entries]
              refine List.Forall₂.cons ?_ ihrel
              have he1 : entry1 A p = mkRep p "collision_deferred" (some hsh) := by
                simp [entry1, hA, hAseen, hAex, hAd]
              rw [he1]
              intro hcon
              rcases hcon with h | h <;> exact absurd h (by simp [mkRep])
        · -- copied in run 1; run 2 sees the fingerprint in the rebuilt index
          rw [Bool.not_eq_true] at hAex
          have hAeq := step1_copy hA hAseen hAex
          have hAfs0 : (step1 A p).fs = fsInsert A.fs p.dst hsh := by rw [hAeq]
          have hAsn : (step1 A p).seen = seenInsert A.seen hsh p.dst := by rw [hAeq]
          have hBseen : seenContains B.seen hsh = true := by
            refine hP3 p.dst hsh hdst hdname ?_
            rw [List.foldl_cons]
            refine foldl_step1_fs_mono rest (step1 A p) ?_
            rw [hAfs0]
            exact fsLookup_insert_self A.fs p.dst hsh
          obtain ⟨hBfs0, hBsn, hBe⟩ := step1_dup_facts hB hBseen
          obtain ⟨ihfs, ihrel⟩ := ih (step1 A p) (step1 B p) hrest
            (by rw [hBfs0, hBfs, List.foldl_cons])
            (by
              rw [hAsn, hBsn]
              intro x hx
              by_cases hxh : x = hsh
              · subst hxh
                exact hBseen
              · rw [seenContains, seenInsert, seenGet_cons, if_neg hxh] at hx
                exact hP2 x hx)
            (by
              rw [hBsn]
              intro q hq hu hn hlk
              exact hP3 q hq hu hn (by rw [List.foldl_cons]; exact hlk))
          constructor
          · rw [List.foldl_cons, ihfs, hBfs0]
          · rw [pass1Entries, pass1Entries]
            refine List.Forall₂.cons ?_ ihrel
            rw [hBe]
            intro _
            rfl

/-! ## At most one physical copy per content -/

/-- Invariant: relative to the initial filesystem, at most one file with
content `h` has been created, and if one has been, `h` is registered in
`seen_hashes`. -/
def copyInv (fs0 : FS) (h : Nat) (fs : FS) (seen : List (Nat × FPath)) : Prop :=
  countContent fs h ≤ countContent fs0 h + 1 ∧
    (countContent fs0 h < countContent fs h → seenContains seen h = true)

theorem step1_copyInv {fs0 : FS} {h : Nat} {st : St1} {q : PlannedCopy}
    (hinv : copyInv fs0 h st.fs st.seen) : copyInv fs0 h (step1 st q).fs (step1 st q).seen := by
  obtain ⟨hc, hs⟩ := hinv
  rcases hh : _hash_file st.fs q.src with _ | hsh
  · rw [step1_error hh]
    exact ⟨hc, hs⟩
  · by_cases h2 : seenContains st.seen hsh = true
    · rw [step1_dup hh h2]
      exact ⟨hc, hs⟩
    · rw [Bool.not_eq_true] at h2
      by_cases h3 : fsExists st.fs q.dst = true
      · by_cases h4 : _hash_file st.fs q.dst = some hsh
        · rw [step1_already hh h2 h3 h4]
          exact ⟨hc, fun hlt => seenContains_insert_mono (hs hlt)⟩
        · rw [step1_collision hh h2 h3 h4]
          exact ⟨hc, hs⟩
      · rw [Bool.not_eq_true] at h3
        rw [step1_copy hh h2 h3]
        by_cases hq : hsh = h
        · subst hq
          have hle : countContent st.fs hsh ≤ countContent fs0 hsh := by
            by_contra hgt
            rw [hs (by omega)] at h2
            exact Bool.noConfusion h2
          constructor
          · rw [countContent_insert, if_pos rfl]
            omega
          · intro _
            exact seenContains_insert_self st.seen hsh q.dst
        · constructor
          · rw [countContent_insert, if_neg hq]
            omega
          · intro hlt
            rw [countContent_insert, if_neg hq] at hlt
            exact seenContains_insert_mono (hs (by omega))

theorem foldl_step1_copyInv {fs0 : FS} {h : Nat} :
    ∀ (ps : List PlannedCopy) (st : St1), copyInv fs0 h st.fs st.seen →
      copyInv fs0 h (List.foldl step1 st ps).fs (List.foldl step1 st ps).seen
  | [], _, hinv => hinv
  | q :: ps, st, hinv => foldl_step1_copyInv ps (step1 st q) (step1_copyInv hinv)

theorem step2_copyInv {fs0 : FS} {h : Nat} {policy : String} {cdir : List String}
    {st st' : St2} {c : ColEntry} (hok : step2 policy cdir st c = .ok st')
    (hinv : copyInv fs0 h st.fs st.seen) : copyInv fs0 h st'.fs st'.seen := by
  obtain ⟨hc, hs⟩ := hinv
  by_cases h1 : seenContains st.seen c.src_hash = true
  · rw [step2_dupafter h1] at hok
    injection hok with hok'
    subst hok'
    exact ⟨hc, hs⟩
  · rw [Bool.not_eq_true] at h1
    by_cases h2 : policy = "skip"
    · subst h2
      rw [step2_skip h1] at hok
      injection hok with hok'
      subst hok'
      exact ⟨hc, hs⟩
    · rcases h3 : finalDst policy cdir st c with _ | fd
      · rw [step2_exhaust h1 h2 h3] at hok
        exact Except.noConfusion hok
      · rw [step2_copy_eq h1 h2 h3] at hok
        injection hok with hok'
        subst hok'
        by_cases hq : c.src_hash = h
        · subst hq
          have hle : countContent st.fs c.src_hash ≤ countContent fs0 c.src_hash := by
            by_contra hgt
            rw [hs (by omega)] at h1
            exact Bool.noConfusion h1
          constructor
          · rw [countContent_insert, if_pos rfl]
            omega
          · intro _
            exact seenContains_insert_self st.seen c.src_hash fd
        · constructor
          · rw [countContent_insert, if_neg hq]
            omega
          · intro hlt
            rw [countContent_insert, if_neg hq] at hlt
            exact seenContains_insert_mono (hs (by omega))

theorem pass2_copyInv {fs0 : FS} {h : Nat} {policy : String} {cdir : List String} :
    ∀ (cs : List ColEntry) (st : St2), copyInv fs0 h st.fs st.seen →
      copyInv fs0 h (pass2 policy cdir st cs).1.fs (pass2 policy cdir st cs).1.seen := by
  intro cs
  induction cs with
  | nil => intro st hinv; exact hinv
  | cons c rest ih =>
    intro st hinv
    rcases hstep : step2 policy cdir st c with e | st'
    · rw [pass2_cons_err hstep]
      exact hinv
    · rw [pass2_cons_ok hstep]
      exact ih st' (step2_copyInv hstep hinv)

/-- At most one new file per content in a whole run. -/
theorem cwp_at_most_one_copy (plans : List PlannedCopy) (idx : List (Nat × List FPath))
    (base : List String) (pol : String) (fs0 : FS) (h : Nat) :
    countContent (copy_with_policy plans idx base pol fs0).fs h ≤ countContent fs0 h + 1 := by
  rw [cwp_fs]
  have h1 : copyInv fs0 h (pass1St plans idx fs0).fs (pass1St plans idx fs0).seen := by
    rw [pass1St]
    refine foldl_step1_copyInv (sortPlans plans) ⟨fs0, initialSeen idx, [], [], []⟩ ⟨?_, ?_⟩
    · show countContent fs0 h ≤ countContent fs0 h + 1
      omega
    · show countContent fs0 h < countContent fs0 h → _
      intro hlt
      exact absurd hlt (by omega)
  exact (pass2_copyInv (pass1St plans idx fs0).cols
    ⟨(pass1St plans idx fs0).fs, (pass1St plans idx fs0).seen, [], []⟩ h1).1

/-- A run that aborted in the resolution pass never writes the
applied-collisions log. -/
theorem cwp_aborted_applied (plans : List PlannedCopy) (idx : List (Nat × List FPath))
    (base : List String) (pol : String) (fs0 : FS)
    (h : (copy_with_policy plans idx base pol fs0).aborted = true) :
    (copy_with_policy plans idx base pol fs0).applied = none := by
  rw [copy_with_policy] at h ⊢
  by_cases hc : (pass1St plans idx fs0).cols = []
  · simp [hc] at h
  · simp only [hc, if_neg, ite_false] at h ⊢
    by_cases h2 : (pass2 pol (base ++ ["conflicts"])
        ⟨(pass1St plans idx fs0).fs, (pass1St plans idx fs0).seen, [], []⟩
        (pass1St plans idx fs0).cols).2 = true
    · simp [hc, h2]
    · simp [hc, h2] at h

/-- A lookup misses every entry of a list whose keys all differ from it. -/
theorem fsLookup_none_of_all_ne : ∀ {fs : FS} {q : FPath},
    (∀ pc ∈ fs, pc.1 ≠ q) → fsLookup fs q = none := by
  intro fs
  induction fs with
  | nil => intro q _; rfl
  | cons pc rest ih =>
    intro q hall
    obtain ⟨p0, c0⟩ := pc
    rw [fsLookup_cons, if_neg, ih (fun e he => hall e (List.mem_cons_of_mem _ he))]
    intro hq
    exact hall (p0, c0) (List.mem_cons_self _ _) (by rw [hq])

/-! ## Concrete scenarios -/

namespace Scenario

/-- Primary `photo.jpg` and sidecar `photo.xmp`, both colliding with
existing different content, policy `rename`. -/
def srcM : FPath := ⟨["s"], "photo.jpg"⟩
def srcS : FPath := ⟨["s"], "photo.xmp"⟩
def dstM : FPath := ⟨["d"], "photo.jpg"⟩
def dstS : FPath := ⟨["d"], "photo.xmp"⟩
def planM : PlannedCopy := ⟨srcM, dstM, "media", "g"⟩
def planS : PlannedCopy := ⟨srcS, dstS, "sidecar", "g"⟩
def fs4 : FS := [(srcM, some 1), (srcS, some 2), (dstM, some 3), (dstS, some 4)]
def r4 : RunResult := copy_with_policy [planS, planM] (build_dest_hash_index fs4 ["d"]) ["d"]
  "rename" fs4

/-- Two plans with identical source content (5); the first collides at
its destination, the second's destination is free. -/
def pA : PlannedCopy := ⟨⟨["s"], "a.jpg"⟩, ⟨["da"], "a.jpg"⟩, "media", "g1"⟩
def pB : PlannedCopy := ⟨⟨["s"], "b.jpg"⟩, ⟨["da"], "b.jpg"⟩, "media", "g2"⟩
def fs1 : FS := [(⟨["s"], "a.jpg"⟩, some 5), (⟨["s"], "b.jpg"⟩, some 5),
  (⟨["da"], "a.jpg"⟩, some 7)]
def r1x : RunResult := copy_with_policy [pA, pB] (build_dest_hash_index fs1 ["da"]) ["da"]
  "skip" fs1

/-- One plan into an initially empty destination, run twice. -/
def pC : PlannedCopy := ⟨⟨["s"], "c.jpg"⟩, ⟨["d3"], "c.jpg"⟩, "media", "g"⟩
def fs3 : FS := [(⟨["s"], "c.jpg"⟩, some 9)]
def r3a : RunResult := copy_with_policy [pC] (build_dest_hash_index fs3 ["d3"]) ["d3"]
  "skip" fs3
def r3b : RunResult := copy_with_policy [pC] (build_dest_hash_index r3a.fs ["d3"]) ["d3"]
  "skip" r3a.fs

/-- A mid-run state whose `seen_hashes` already knows fingerprint 5,
while the planned destination exists with different content (9). -/
def pV : PlannedCopy := ⟨⟨["s"], "v.jpg"⟩, ⟨["d"], "v.jpg"⟩, "media", "gv"⟩
def stV : St1 := ⟨[(⟨["s"], "v.jpg"⟩, some 5), (⟨["d"], "v.jpg"⟩, some 9)],
  [(5, ⟨["e"], "z.jpg"⟩)], [], [], []⟩

/-- A state in which `pV`'s source file does not exist (hashing it
raises `OSError`). -/
def stE : St1 := ⟨[(⟨["d"], "other.jpg"⟩, some 3)], [], [], [], []⟩

/-- A stale applied-collisions record from an earlier run. -/
def staleApplied : AppEntry :=
  ⟨⟨⟨["s"], "old.jpg"⟩, ⟨["d3"], "old.jpg"⟩, "media", "g0", 1, some 2⟩, "skipped_collision", none⟩

/-- A single colliding plan under the `rename` policy. -/
def pR : PlannedCopy := ⟨⟨["s"], "a.jpg"⟩, ⟨["d"], "a.jpg"⟩, "media", "g"⟩
def fsR : FS := [(⟨["s"], "a.jpg"⟩, some 5), (⟨["d"], "a.jpg"⟩, some 7)]
def rR : RunResult := copy_with_policy [pR] (build_dest_hash_index fsR ["d"]) ["d"]
  "rename" fsR

/-- Name-space exhaustion: the planned destination and all 9999
disambiguated sibling names already exist, and a second, resolvable
collision is pending behind the exhausting one. -/
def srcX : FPath := ⟨["sx"], "a.jpg"⟩
def dstX : FPath := ⟨["dx"], "a.jpg"⟩
def pX : PlannedCopy := ⟨srcX, dstX, "media", "gx"⟩
def fsX : FS :=
  (srcX, some 5) :: (dstX, some 7) ::
    (List.range 9999).map (fun k => (⟨["dx"], candName "a" ".jpg" (k+1)⟩, some 0))
def colX : ColEntry := ⟨srcX, dstX, "media", "gx", 5, some 7⟩
def srcY : FPath := ⟨["sy"], "b.jpg"⟩
def dstY : FPath := ⟨["dx"], "b.jpg"⟩
def pY : PlannedCopy := ⟨srcY, dstY, "media", "gy"⟩
def colY : ColEntry := ⟨srcY, dstY, "media", "gy", 6, some 8⟩
def fsX2 : FS := (srcY, some 6) :: (dstY, some 8) :: fsX
def stMidX2 : St1 := ⟨fsX2, [], [mkRep pX "collision_deferred" (some 5)], [], [colX]⟩
def rX2 : RunResult := copy_with_policy [pX, pY] [] ["dx"] "rename" fsX2

theorem fsX2_cands_exist : ∀ j, 1 ≤ j → j < 1 + 9999 →
    fsExists fsX2 ⟨["dx"], candName "a" ".jpg" j⟩ = true := by
  intro j hj1 hj2
  refine @fsExists_of_mem fsX2 ⟨["dx"], candName "a" ".jpg" j⟩ (some 0) ?_
  refine List.mem_cons_of_mem _ (List.mem_cons_of_mem _
    (List.mem_cons_of_mem _ (List.mem_cons_of_mem _ ?_)))
  refine List.mem_map.mpr ⟨j - 1, List.mem_range.mpr (by omega), ?_⟩
  rw [Nat.sub_add_cancel hj1]

theorem ensure_unique_exhaust_X2 : _ensure_unique_path fsX2 dstX = none := by
  rw [_ensure_unique_path]
  have hex : fsExists fsX2 dstX = true := by decide
  rw [if_pos hex]
  have hstem : pstem dstX = "a" := by decide
  have hsfx : psuffix dstX = ".jpg" := by decide
  rw [hstem, hsfx]
  exact euSearch_exhaust 9999 1 fsX2_cands_exist

theorem step2_exhaust_X2 (cdir : List String) :
    step2 "rename" cdir ⟨fsX2, [], [], []⟩ colX = .error "Could not find a free name" := by
  refine step2_exhaust (by decide) (by decide) ?_
  have h1 : finalDst "rename" cdir ⟨fsX2, [], [], []⟩ colX = _ensure_unique_path fsX2 dstX := by
    simp [finalDst, colX]
  rw [h1]
  exact ensure_unique_exhaust_X2

theorem pass1St_X2 : pass1St [pX, pY] [] fsX2 =
    ⟨fsX2, [],
      [mkRep pX "collision_deferred" (some 5), mkRep pY "collision_deferred" (some 6)],
      [], [colX, colY]⟩ := by
  rw [pass1St]
  have hs : sortPlans [pX, pY] = [pX, pY] := rfl
  rw [hs]
  show step1 (step1 ⟨fsX2, [], [], [], []⟩ pX) pY = _
  have hstep1 : step1 ⟨fsX2, [], [], [], []⟩ pX = stMidX2 := by
    rw [@step1_collision ⟨fsX2, [], [], [], []⟩ pX 5
      (by decide) (by decide) (by decide) (by decide)]
    simp only [List.nil_append]
    have hd : _hash_file fsX2 pX.dst = some 7 := by decide
    rw [hd]
    rfl
  rw [hstep1]
  rw [@step1_collision stMidX2 pY 6
    (by decide) (by decide) (by decide) (by decide)]
  have hd : _hash_file stMidX2.fs pY.dst = some 8 := by decide
  rw [hd]
  rfl

theorem rX2_aborted : rX2.aborted = true := by
  have h1 := cwp_aborted [pX, pY] [] ["dx"] "rename" fsX2
  simp only [pass1St_X2] at h1
  rw [rX2, h1, pass2_cons_err (step2_exhaust_X2 _)]

theorem rX2_fs : rX2.fs = fsX2 := by
  have h1 := cwp_fs [pX, pY] [] ["dx"] "rename" fsX2
  simp only [pass1St_X2] at h1
  rw [rX2, h1, pass2_cons_err (step2_exhaust_X2 _)]

theorem candName_a_ne (k : Nat) : candName "a" ".jpg" k ≠ "b_(1).jpg" := by
  intro h
  have h2 : (candName "a" ".jpg" k).data = "b_(1).jpg".data := by rw [h]
  rw [candName] at h2
  simp only [String.data_append] at h2
  simp at h2

/-- The resolvable second collision (`b.jpg`, which `rename` would have
sent to `b_(1).jpg`) is left unresolved because the run aborted. -/
theorem rX2_second_unresolved : fsLookup rX2.fs ⟨["dx"], "b_(1).jpg"⟩ = none := by
  rw [rX2_fs]
  apply fsLookup_none_of_all_ne
  intro pc hpc
  rcases List.mem_cons.mp hpc with rfl | h1
  · decide
  rcases List.mem_cons.mp h1 with rfl | h2
  · decide
  rcases List.mem_cons.mp h2 with rfl | h3
  · decide
  rcases List.mem_cons.mp h3 with rfl | h4
  · decide
  obtain ⟨k, _, rfl⟩ := List.mem_map.mp h4
  intro hcon
  have : candName "a" ".jpg" (k+1) = "b_(1).jpg" := by
    injection hcon with hd hn
  exact candName_a_ne (k+1) this

end Scenario

/-! ## Claim theorems -/

/-- C10: duplicate detection takes precedence over collision detection —
whenever a plan's source fingerprint is already in `seen_hashes`, the
engine records `skipped_duplicate` and a duplicates entry, touching
nothing else: the filesystem is unchanged and no collision is deferred,
whatever the planned destination currently holds. -/
theorem C10_dup_precedence :
    ∀ (st : St1) (p : PlannedCopy) (hsh : Nat),
      _hash_file st.fs p.src = some hsh → seenContains st.seen hsh = true →
      step1 st p = { st with
        dups := st.dups ++ [⟨p.src, p.dst, p.kind, p.group_id, seenGet st.seen hsh, hsh⟩],
        report := st.report ++ [mkRep p "skipped_duplicate" (some hsh)] } ∧
      (step1 st p).fs = st.fs ∧ (step1 st p).cols = st.cols :=
  fun _ _ _ h1 h2 => ⟨step1_dup h1 h2, by rw [step1_dup h1 h2], by rw [step1_dup h1 h2]⟩

/-- C10 witness: a concrete state whose destination holds different
content, yet the known fingerprint wins: no collision is deferred. -/
theorem C10_dup_precedence_witness :
    step1 Scenario.stV Scenario.pV = { Scenario.stV with
        dups := Scenario.stV.dups ++ [⟨Scenario.pV.src, Scenario.pV.dst, Scenario.pV.kind,
          Scenario.pV.group_id, seenGet Scenario.stV.seen 5, 5⟩],
        report := Scenario.stV.report ++ [mkRep Scenario.pV "skipped_duplicate" (some 5)] } ∧
      (step1 Scenario.stV Scenario.pV).fs = Scenario.stV.fs ∧
      (step1 Scenario.stV Scenario.pV).cols = Scenario.stV.cols :=
  C10_dup_precedence Scenario.stV Scenario.pV 5 (by decide) (by decide)

/-- C7: per-file error isolation — every run's full report has exactly
one record per plan (the run never aborts in the reporting pass), and a
plan whose source cannot be hashed is recorded with status `error`
while everything else (filesystem, index, other records) is unchanged,
so execution continues with the next plan. -/
theorem C7_error_isolation :
    (∀ (plans : List PlannedCopy) (idx : List (Nat × List FPath)) (base : List String)
      (pol : String) (fs0 : FS),
      (copy_with_policy plans idx base pol fs0).report.length = plans.length) ∧
    ∀ (st : St1) (p : PlannedCopy), _hash_file st.fs p.src = none →
      step1 st p = { st with report := st.report ++ [mkRep p "error" none] } := by
  constructor
  · intro plans idx base pol fs0
    rw [cwp_report, pass1St_report]
    have h1 := pass1Entries_length ⟨fs0, initialSeen idx, [], [], []⟩ (sortPlans plans)
    rw [h1, length_sortPlans]
  · exact fun _ _ h => step1_error h

/-- C7 witness: an unreadable source file produces an `error` record and
nothing else. -/
theorem C7_error_isolation_witness :
    step1 Scenario.stE Scenario.pV =
      { Scenario.stE with report := Scenario.stE.report ++ [mkRep Scenario.pV "error" none] } :=
  C7_error_isolation.2 Scenario.stE Scenario.pV (by decide)

/-- C5: deterministic commit ordering — the execution order used by the
commit engine is a permutation of the plans that is sorted by the key
(group identity, primary-before-sidecar, source path); consequently
within every group every media plan precedes every sidecar plan. -/
theorem C5_ordering :
    ∀ plans : List PlannedCopy,
      (sortPlans plans).Perm plans ∧
      List.Pairwise planLE (sortPlans plans) ∧
      List.Pairwise (fun a b => a.group_id = b.group_id → b.kind = "media" → a.kind = "media")
        (sortPlans plans) := by
  intro plans
  refine ⟨sortPlans_perm plans, sortPlans_sorted plans, (sortPlans_sorted plans).imp ?_⟩
  intro a b hab hg hbk
  by_cases ha : a.kind = "media"
  · exact ha
  · exfalso
    unfold planLE planLEb at hab
    have hgeq : strCmp a.group_id b.group_id = .eq := (strCmp_eq_iff _ _).mpr hg
    have hka : kindNum a.kind = 1 := by simp [kindNum, ha]
    have hkb : kindNum b.kind = 0 := by simp [kindNum, hbk]
    simp only [hgeq, hka, hkb] at hab
    have hcmp : compare 1 0 = Ordering.gt := by decide
    simp only [hcmp] at hab
    exact Bool.noConfusion hab

/-- C2: frame property — no file present before the run is ever
overwritten or deleted: every pre-existing path still holds its exact
prior content after the run; and in the concrete `rename` collision
scenario the original file keeps its content while the incoming file
lands at the numerically disambiguated sibling path. -/
theorem C2_no_overwrite :
    (∀ (plans : List PlannedCopy) (idx : List (Nat × List FPath)) (base : List String)
      (pol : String) (fs0 : FS) (p : FPath) (v : Option Nat),
      fsLookup fs0 p = some v →
      fsLookup (copy_with_policy plans idx base pol fs0).fs p = some v) ∧
    fsLookup Scenario.rR.fs ⟨["d"], "a.jpg"⟩ = some (some 7) ∧
    fsLookup Scenario.rR.fs ⟨["d"], "a_(1).jpg"⟩ = some (some 5) := by
  refine ⟨?_, by decide, by decide⟩
  intro plans idx base pol fs0 p v hp
  rw [cwp_fs]
  exact pass2_fs_mono _ _ (foldl_step1_fs_mono (sortPlans plans) ⟨fs0, initialSeen idx, [], [], []⟩ hp)

/-- C2 witness: in the concrete rename scenario, the pre-existing
destination file keeps its content through the whole run. -/
theorem C2_no_overwrite_witness :
    fsLookup Scenario.rR.fs ⟨["s"], "a.jpg"⟩ = some (some 5) :=
  C2_no_overwrite.1 [Scenario.pR] (build_dest_hash_index Scenario.fsR ["d"]) ["d"] "rename"
    Scenario.fsR ⟨["s"], "a.jpg"⟩ (some 5) (by decide)

/-- C8: destination bucketing — items without a timestamp are routed to
the fixed `unknown_date` bucket; a dated item's folder is derived from
exactly the stored year, month and day; parsing keeps the components as
written (with a timezone offset stored but never applied), so
`2024:05:01 10:00:00` and `2024:05:01 01:00:00+11:00` both route under
the `2024-05-01`-keyed folder (the latter would be 2024-04-30 in UTC). -/
theorem C8_bucketing :
    (∀ (base : List String) (item : MediaItem), item.exif_date = none →
      _folder_for_item base item = base ++ ["unknown_date"]) ∧
    (∀ (base : List String) (item : MediaItem) (dt : ExifDT), item.exif_date = some dt →
      _folder_for_item base item = base ++
        [padZeros 4 dt.year ++ "-" ++ padZeros 2 dt.month ++ "-" ++ padZeros 2 dt.day ++ " -"]) ∧
    _parse_exif_dt "2024:05:01 10:00:00" = some ⟨2024, 5, 1, 10, 0, 0, none⟩ ∧
    _parse_exif_dt "2024:05:01 01:00:00+11:00" = some ⟨2024, 5, 1, 1, 0, 0, some 660⟩ ∧
    _folder_for_item ["out"] ⟨⟨["s"], "x.jpg"⟩, [], some ⟨2024, 5, 1, 10, 0, 0, none⟩,
      some "DateTimeOriginal", some "image/jpeg"⟩ = ["out", "2024-05-01 -"] ∧
    _folder_for_item ["out"] ⟨⟨["s"], "x.jpg"⟩, [], some ⟨2024, 5, 1, 1, 0, 0, some 660⟩,
      some "DateTimeOriginal", some "image/jpeg"⟩ = ["out", "2024-05-01 -"] := by
  refine ⟨?_, ?_, by decide, by decide, by decide, by decide⟩
  · intro base item h
    simp [_folder_for_item, h]
  · intro base item dt h
    simp [_folder_for_item, h]

/-- C8 witness: the two general bucketing conjuncts applied to concrete
items. -/
theorem C8_bucketing_witness :
    _folder_for_item ["o"] ⟨⟨["s"], "y.jpg"⟩, [], none, none, some "image/jpeg"⟩ =
      ["o"] ++ ["unknown_date"] ∧
    _folder_for_item ["o"] ⟨⟨["s"], "y.jpg"⟩, [], some ⟨2023, 12, 31, 0, 0, 0, none⟩,
        some "CreateDate", some "image/jpeg"⟩ =
      ["o"] ++ [padZeros 4 2023 ++ "-" ++ padZeros 2 12 ++ "-" ++ padZeros 2 31 ++ " -"] :=
  ⟨C8_bucketing.1 ["o"] ⟨⟨["s"], "y.jpg"⟩, [], none, none, some "image/jpeg"⟩ rfl,
   C8_bucketing.2.1 ["o"] ⟨⟨["s"], "y.jpg"⟩, [], some ⟨2023, 12, 31, 0, 0, 0, none⟩,
     some "CreateDate", some "image/jpeg"⟩ ⟨2023, 12, 31, 0, 0, 0, none⟩ rfl⟩

/-- C1: counterexample — two plans with identical source content where
the earlier plan (in committed order) collides while the later plan's
destination is free: the engine physically copies the LATER plan (its
report entry is `copied` and its destination file appears), while the
earlier one is never copied (`collision_deferred`, then
`skipped_duplicate_after_policy`).  This refutes "at most the first (in
committed order) is physically copied". -/
theorem C1_counterexample :
    _hash_file Scenario.fs1 Scenario.pA.src = _hash_file Scenario.fs1 Scenario.pB.src ∧
    sortPlans [Scenario.pA, Scenario.pB] = [Scenario.pA, Scenario.pB] ∧
    Scenario.r1x.report.map (fun e => e.status) = ["collision_deferred", "copied"] ∧
    fsLookup Scenario.fs1 Scenario.pB.dst = none ∧
    fsLookup Scenario.r1x.fs Scenario.pB.dst = some (some 5) ∧
    Scenario.r1x.applied = some [⟨⟨⟨["s"], "a.jpg"⟩, ⟨["da"], "a.jpg"⟩, "media", "g1", 5, some 7⟩,
      "skipped_duplicate_after_policy", none⟩] := by
  decide

/-- C1 (amended): a plan whose fingerprint is already in the index is
never copied and is reported `skipped_duplicate`; and per run, at most
ONE plan per content is physically copied (the run adds at most one
file with any given content), though not necessarily the first in
committed order. -/
theorem C1_amended :
    (∀ (st : St1) (p : PlannedCopy) (hsh : Nat), _hash_file st.fs p.src = some hsh →
      seenContains st.seen hsh = true →
      (step1 st p).fs = st.fs ∧
        (step1 st p).report = st.report ++ [mkRep p "skipped_duplicate" (some hsh)]) ∧
    ∀ (plans : List PlannedCopy) (idx : List (Nat × List FPath)) (base : List String)
      (pol : String) (fs0 : FS) (h : Nat),
      countContent (copy_with_policy plans idx base pol fs0).fs h ≤ countContent fs0 h + 1 := by
  constructor
  · intro st p hsh h1 h2
    rw [step1_dup h1 h2]
    exact ⟨rfl, rfl⟩
  · exact cwp_at_most_one_copy

/-- C1 witness: the duplicate-skip conjunct at a concrete state, and the
at-most-one-copy bound in the concrete duplicate-content run. -/
theorem C1_amended_witness :
    ((step1 Scenario.stV Scenario.pV).fs = Scenario.stV.fs ∧
      (step1 Scenario.stV Scenario.pV).report =
        Scenario.stV.report ++ [mkRep Scenario.pV "skipped_duplicate" (some 5)]) ∧
    countContent Scenario.r1x.fs 5 ≤ countContent Scenario.fs1 5 + 1 :=
  ⟨C1_amended.1 Scenario.stV Scenario.pV 5 (by decide) (by decide),
   C1_amended.2 [Scenario.pA, Scenario.pB] (build_dest_hash_index Scenario.fs1 ["da"]) ["da"]
     "skip" Scenario.fs1 5⟩

/-- C4: sidecar rename propagation — a sidecar whose group has a
recorded primary rename is committed with the new stem substituted for
the old one in its file name, under the primary's resolved parent
directory (then disambiguated); a primary whose resolved stem differs
from the planned one records exactly that mapping; and in the concrete
scenario primary `photo.jpg` resolved to `photo_(1).jpg` makes sidecar
`photo.xmp` land at `photo_(1).xmp` in the same directory. -/
theorem C4_sidecar_rename :
    (∀ (policy : String) (cdir : List String) (st : St2) (c : ColEntry)
      (os ns : String) (np : List String) (fd : FPath),
      policy ≠ "skip" → seenContains st.seen c.src_hash = false →
      c.kind = "sidecar" → renLookup st.renames c.group_id = some (os, ns, np) →
      _ensure_unique_path st.fs ⟨np, replaceFirst c.dst.name os ns⟩ = some fd →
      step2 policy cdir st c = .ok ⟨fsInsert st.fs fd c.src_hash,
        seenInsert st.seen c.src_hash fd, st.renames,
        st.applied ++ [⟨c, "copied_after_collision", some fd⟩]⟩ ∧ fd.dir = np) ∧
    (∀ (policy : String) (cdir : List String) (st : St2) (c : ColEntry) (fd : FPath),
      policy ≠ "skip" → seenContains st.seen c.src_hash = false →
      c.kind = "media" → finalDst policy cdir st c = some fd → pstem fd ≠ pstem c.dst →
      step2 policy cdir st c = .ok ⟨fsInsert st.fs fd c.src_hash,
        seenInsert st.seen c.src_hash fd,
        (c.group_id, pstem c.dst, pstem fd, fd.dir) :: st.renames,
        st.applied ++ [⟨c, "copied_after_collision", some fd⟩]⟩) ∧
    fsLookup Scenario.r4.fs ⟨["d"], "photo_(1).jpg"⟩ = some (some 1) ∧
    fsLookup Scenario.r4.fs ⟨["d"], "photo_(1).xmp"⟩ = some (some 2) ∧
    Scenario.r4.applied = some
      [⟨⟨Scenario.srcM, Scenario.dstM, "media", "g", 1, some 3⟩, "copied_after_collision",
        some ⟨["d"], "photo_(1).jpg"⟩⟩,
       ⟨⟨Scenario.srcS, Scenario.dstS, "sidecar", "g", 2, some 4⟩, "copied_after_collision",
        some ⟨["d"], "photo_(1).xmp"⟩⟩] := by
  refine ⟨?_, ?_, by decide, by decide, by decide⟩
  · intro policy cdir st c os ns np fd hpol hseen hkind hren heu
    have hfd : finalDst policy cdir st c = some fd := by
      rw [finalDst, hkind]
      simp only [if_pos rfl, hren]
      exact heu
    refine ⟨?_, ?_⟩
    · rw [step2_copy_eq hseen hpol hfd]
      have hnotmedia : ¬ (c.kind = "media" ∧ pstem fd ≠ pstem c.dst) := by
        intro hcon
        rw [hkind] at hcon
        exact absurd hcon.1 (by decide)
      rw [if_neg hnotmedia]
    · exact ensure_unique_dir heu
  · intro policy cdir st c fd hpol hseen hkind hfd hstem
    rw [step2_copy_eq hseen hpol hfd]
    rw [if_pos ⟨hkind, hstem⟩]

/-- C4 witness: the sidecar-follow conjunct applied to a concrete state
with a recorded primary rename. -/
theorem C4_sidecar_rename_witness :
    step2 "rename" (["d"] ++ ["conflicts"])
        ⟨Scenario.fs4, [], [("g", "photo", "photo_(1)", ["d"])], []⟩
        ⟨Scenario.srcS, Scenario.dstS, "sidecar", "g", 2, some 4⟩ =
      .ok ⟨fsInsert Scenario.fs4 ⟨["d"], "photo_(1).xmp"⟩ 2,
        seenInsert [] 2 ⟨["d"], "photo_(1).xmp"⟩, [("g", "photo", "photo_(1)", ["d"])],
        [] ++ [⟨⟨Scenario.srcS, Scenario.dstS, "sidecar", "g", 2, some 4⟩,
          "copied_after_collision", some ⟨["d"], "photo_(1).xmp"⟩⟩]⟩ ∧
      (⟨["d"], "photo_(1).xmp"⟩ : FPath).dir = ["d"] :=
  C4_sidecar_rename.1 "rename" (["d"] ++ ["conflicts"])
    ⟨Scenario.fs4, [], [("g", "photo", "photo_(1)", ["d"])], []⟩
    ⟨Scenario.srcS, Scenario.dstS, "sidecar", "g", 2, some 4⟩
    "photo" "photo_(1)" ["d"] ⟨["d"], "photo_(1).xmp"⟩
    (by decide) (by decide) (by decide) (by decide) (by decide)

/-- C6: counterexample — a run in which the first deferred collision
exhausts the disambiguation name space: the resolution pass aborts
(`RuntimeError` propagates), the applied-collisions log is never
written (the failure is not reported), and the second, resolvable
deferred collision is left unresolved (its rename target is never
created).  This refutes "fatal only for that single file, reported, run
continues". -/
theorem C6_counterexample :
    (pass1St [Scenario.pX, Scenario.pY] [] Scenario.fsX2).cols =
      [Scenario.colX, Scenario.colY] ∧
    Scenario.rX2.aborted = true ∧
    Scenario.rX2.applied = none ∧
    fsLookup Scenario.rX2.fs ⟨["dx"], "b_(1).jpg"⟩ = none := by
  refine ⟨?_, Scenario.rX2_aborted, ?_, Scenario.rX2_second_unresolved⟩
  · rw [Scenario.pass1St_X2]
  · exact cwp_aborted_applied _ _ _ _ _ Scenario.rX2_aborted

/-- C6 (amended): name-space exhaustion in the disambiguation search
aborts the whole collision-resolution pass — the loop stops at the
failing entry, the remaining deferred collisions are not processed —
and an aborted run never writes the applied-collisions log. -/
theorem C6_amended :
    (∀ (policy : String) (cdir : List String) (st : St2) (c : ColEntry)
      (rest : List ColEntry) (e : String), step2 policy cdir st c = .error e →
      pass2 policy cdir st (c :: rest) = (st, true)) ∧
    ∀ (plans : List PlannedCopy) (idx : List (Nat × List FPath)) (base : List String)
      (pol : String) (fs0 : FS), (copy_with_policy plans idx base pol fs0).aborted = true →
      (copy_with_policy plans idx base pol fs0).applied = none :=
  ⟨fun _ _ _ _ _ _ h => pass2_cons_err h,
   fun plans idx base pol fs0 h => cwp_aborted_applied plans idx base pol fs0 h⟩

/-- C6 witness: the abort conjunct at the concrete exhausting state,
with the resolvable collision still pending behind it. -/
theorem C6_amended_witness :
    pass2 "rename" (["dx"] ++ ["conflicts"]) ⟨Scenario.fsX2, [], [], []⟩
        [Scenario.colX, Scenario.colY] =
      (⟨Scenario.fsX2, [], [], []⟩, true) :=
  C6_amended.1 "rename" (["dx"] ++ ["conflicts"]) ⟨Scenario.fsX2, [], [], []⟩
    Scenario.colX [Scenario.colY] "Could not find a free name"
    (Scenario.step2_exhaust_X2 _)

/-- C9: counterexample — a run that defers no collisions does not
rewrite `collisions_applied.json`: after the run the file still holds a
stale record from an earlier run (about a plan this run never saw), so
the file on disk does not reflect this run.  This refutes "every run
serializes all four record collections … prior runs' logs are
overwritten". -/
theorem C9_counterexample :
    Scenario.r3a.cols = [] ∧
    Scenario.r3a.applied = none ∧
    (logsAfter ⟨[], [], [], [Scenario.staleApplied]⟩ Scenario.r3a).applied =
      [Scenario.staleApplied] ∧
    Scenario.staleApplied.col.src ≠ Scenario.pC.src := by
  decide

/-- C9 (amended): `report.json`, `duplicates_skipped.json` and
`collisions.json` are fully rewritten on every run; the
applied-collisions log is produced exactly when at least one collision
was deferred and the resolution pass completed, and when it is not
produced the prior file's content survives. -/
theorem C9_amended :
    ∀ (plans : List PlannedCopy) (idx : List (Nat × List FPath)) (base : List String)
      (pol : String) (fs0 : FS) (prior : RunLogs),
      (logsAfter prior (copy_with_policy plans idx base pol fs0)).report =
        (copy_with_policy plans idx base pol fs0).report ∧
      (logsAfter prior (copy_with_policy plans idx base pol fs0)).duplicates =
        (copy_with_policy plans idx base pol fs0).dups ∧
      (logsAfter prior (copy_with_policy plans idx base pol fs0)).collisions =
        (copy_with_policy plans idx base pol fs0).cols ∧
      ((copy_with_policy plans idx base pol fs0).applied.isSome = true ↔
        ((copy_with_policy plans idx base pol fs0).cols ≠ [] ∧
          (copy_with_policy plans idx base pol fs0).aborted = false)) ∧
      ((copy_with_policy plans idx base pol fs0).applied = none →
        (logsAfter prior (copy_with_policy plans idx base pol fs0)).applied = prior.applied) := by
  intro plans idx base pol fs0 prior
  refine ⟨rfl, rfl, rfl, ?_, ?_⟩
  · rw [copy_with_policy]
    by_cases hc : (pass1St plans idx fs0).cols = []
    · simp [hc]
    · by_cases hab : (pass2 pol (base ++ ["conflicts"])
          ⟨(pass1St plans idx fs0).fs, (pass1St plans idx fs0).seen, [], []⟩
          (pass1St plans idx fs0).cols).2 = true
      · simp [hc, hab]
      · simp [hc, hab]
  · intro h
    rw [logsAfter, h]
    rfl

/-- C9 witness: the stale-survival conjunct in the concrete
no-collision run. -/
theorem C9_amended_witness :
    (logsAfter ⟨[], [], [], [Scenario.staleApplied]⟩ Scenario.r3a).applied =
      RunLogs.applied ⟨[], [], [], [Scenario.staleApplied]⟩ :=
  (C9_amended [Scenario.pC] (build_dest_hash_index Scenario.fs3 ["d3"]) ["d3"] "skip"
    Scenario.fs3 ⟨[], [], [], [Scenario.staleApplied]⟩).2.2.2.2 (by decide)

/-- The pipeline's first run: index the destination, then commit. -/
def runTwice1 (plans : List PlannedCopy) (base : List String) (fs0 : FS) : RunResult :=
  copy_with_policy plans (build_dest_hash_index fs0 base) base "skip" fs0

/-- The pipeline's second run over the first run's result. -/
def runTwice2 (plans : List PlannedCopy) (base : List String) (fs0 : FS) : RunResult :=
  copy_with_policy plans (build_dest_hash_index (runTwice1 plans base fs0).fs base) base "skip"
    (runTwice1 plans base fs0).fs

/-- C3: counterexample — one plan, empty destination, policy `skip`, run
twice: the first run copies; the second run records the plan as
`skipped_duplicate` (its fingerprint is in the rebuilt destination
index), NOT `already_present_same_content` as the claim states. -/
theorem C3_counterexample :
    (∀ pc ∈ Scenario.fs3, underDir ["d3"] pc.1 = false) ∧
    Scenario.r3a.report.map (fun e => e.status) = ["copied"] ∧
    Scenario.r3b.fs = Scenario.r3a.fs ∧
    Scenario.r3b.report.map (fun e => e.status) = ["skipped_duplicate"] ∧
    ("skipped_duplicate" : String) ≠ "already_present_same_content" := by
  decide

/-- C3 (amended): with identical sources, an initially empty destination
and the `skip` policy, the second run leaves the destination tree
exactly as the first run left it (no new files), and every plan the
first run recorded as `copied` or `skipped_duplicate` is recorded as
`skipped_duplicate` in the second run (its content is found in the
rebuilt fingerprint index, so the `already_present_same_content` branch
is never reached for such plans). -/
theorem C3_amended :
    ∀ (plans : List PlannedCopy) (base : List String) (fs0 : FS),
      (∀ q ∈ plans, underDir base q.dst = true ∧ q.dst.name ∉ skipNames ∧
        underDir base q.src = false) →
      (∀ pc ∈ fs0, underDir base pc.1 = false) →
      (runTwice2 plans base fs0).fs = (runTwice1 plans base fs0).fs ∧
      List.Forall₂ (fun e1 e2 => (e1.status = "copied" ∨ e1.status = "skipped_duplicate") →
        e2.status = "skipped_duplicate")
        (runTwice1 plans base fs0).report (runTwice2 plans base fs0).report := by
  intro plans base fs0 hplans hempty
  have hidx0 : build_dest_hash_index fs0 base = [] := build_index_empty hempty
  have hr1fs : (runTwice1 plans base fs0).fs =
      (pass1St plans (build_dest_hash_index fs0 base) fs0).fs := by
    rw [runTwice1, cwp_fs]
    exact (pass2_skip_policy _ _).1
  have hr2fs : (runTwice2 plans base fs0).fs =
      (pass1St plans (build_dest_hash_index (runTwice1 plans base fs0).fs base)
        (runTwice1 plans base fs0).fs).fs := by
    rw [runTwice2, cwp_fs]
    exact (pass2_skip_policy _ _).1
  obtain ⟨hBfix, hrel⟩ := run2_sim base (sortPlans plans)
    ⟨fs0, initialSeen (build_dest_hash_index fs0 base), [], [], []⟩
    ⟨(runTwice1 plans base fs0).fs,
      initialSeen (build_dest_hash_index (runTwice1 plans base fs0).fs base), [], [], []⟩
    (fun q hq => hplans q (mem_sortPlans.mp hq))
    hr1fs
    (by
      intro x hx
      rw [hidx0] at hx
      exact Bool.noConfusion hx)
    (by
      intro p hsh hu hn hlk
      have hmem : (p, some hsh) ∈ (runTwice1 plans base fs0).fs := by
        rw [hr1fs]
        exact mem_of_fsLookup hlk
      exact initialSeen_contains (idxWF_build _ _) (build_index_complete hmem hu hn))
  constructor
  · rw [hr2fs]
    exact hBfix
  · have hrep1 : (runTwice1 plans base fs0).report =
        pass1Entries ⟨fs0, initialSeen (build_dest_hash_index fs0 base), [], [], []⟩
          (sortPlans plans) := by
      rw [runTwice1, cwp_report, pass1St_report]
    have hrep2 : (runTwice2 plans base fs0).report =
        pass1Entries ⟨(runTwice1 plans base fs0).fs,
          initialSeen (build_dest_hash_index (runTwice1 plans base fs0).fs base), [], [], []⟩
          (sortPlans plans) := by
      rw [runTwice2, cwp_report, pass1St_report]
    rw [hrep1, hrep2]
    exact hrel

/-- C3 witness: the amended idempotence statement at the concrete
one-plan scenario. -/
theorem C3_amended_witness :
    (runTwice2 [Scenario.pC] ["d3"] Scenario.fs3).fs =
      (runTwice1 [Scenario.pC] ["d3"] Scenario.fs3).fs ∧
    List.Forall₂ (fun e1 e2 => (e1.status = "copied" ∨ e1.status = "skipped_duplicate") →
      e2.status = "skipped_duplicate")
      (runTwice1 [Scenario.pC] ["d3"] Scenario.fs3).report
      (runTwice2 [Scenario.pC] ["d3"] Scenario.fs3).report :=
  C3_amended [Scenario.pC] ["d3"] Scenario.fs3 (by decide) (by decide)

end Trollskript
